import Mathlib

/-!
Verification of the distributed tile-blur pipeline (coordinator / worker /
assembler over Redis streams).  The definitions below are shallow embeddings
of the Go source: `pkg/blur/blur.go`, `f/cmd/coordinator/main.go`,
`f/cmd/worker/main.go`, `f/cmd/assembler/main.go` and
`f/pkg/queue/redis_streams.go`.  Machine `uint8` channels are modelled as
naturals, `float64` kernel arithmetic as rationals with the transcendental
parts (`math.Exp`, `math.Pi`) abstracted as parameters, and the Redis-backed
state (received-tile sets, image metadata) as explicit state passing.
-/

namespace StudyGuide

/-- An RGBA pixel: four 8-bit channels (Go `color.RGBA`), modelled as
naturals.  In Go the channels are `uint8`, hence always `< 256`; theorems
that need that bound carry it as a hypothesis. -/
structure RGBA where
  r : ℕ
  g : ℕ
  b : ℕ
  a : ℕ
deriving DecidableEq, Repr

/-- The zero pixel, `color.RGBA{}`. -/
def rgba0 : RGBA := ⟨0, 0, 0, 0⟩

/-- Pixel grids (`[][]color.RGBA`): a list of rows. -/
abbrev Grid := List (List RGBA)

/-- Read entry `(x, y)` of a grid, with the zero pixel as default for
out-of-range indices (in-range in every execution we model). -/
def getPix (g : Grid) (x y : ℕ) : RGBA := (g.getD y []).getD x rgba0

/-- Go `image.NewRGBA(image.Rect(0,0,w,h))`: an all-zero `w × h` pixel grid. -/
def newRGBA (w h : ℕ) : Grid :=
  (List.range h).map fun _ => (List.range w).map fun _ => rgba0

/-- Go `img.SetRGBA(x, y, v)`: write entry `(x, y)`; like Go's `SetRGBA` the
write is dropped when `(x, y)` is outside the grid (`List.set` is the
identity out of range). -/
def setPix (g : Grid) (x y : ℕ) (v : RGBA) : Grid :=
  g.set y ((g.getD y []).set x v)

/-- Go `common.TILE_SIZE`: the fixed tile edge length. -/
def TILE_SIZE : ℕ := 256

/-- Ceiling division as written in the coordinator:
`tilesX := (b.Dx() + common.TILE_SIZE - 1) / common.TILE_SIZE`. -/
def ceilDiv (n T : ℕ) : ℕ := (n + T - 1) / T

/-- The start offsets visited by the coordinator loop
`for x := 0; x < bound; x += step`.  (Empty when `step = 0`; the code always
uses the positive `TILE_SIZE`.) -/
def splitStarts (bound step x : ℕ) : List ℕ :=
  if _h : 0 < step ∧ x < bound then x :: splitStarts bound step (x + step) else []
termination_by bound - x
decreasing_by omega

/-- The unpadded rectangle of one tile: top-left corner and extent. -/
structure TileRect where
  x : ℕ
  y : ℕ
  w : ℕ
  h : ℕ
deriving DecidableEq, Repr

/-- The tiling grid computed by the coordinator's nested loop
(`for y ... { for x ... }` with `tw := min(TILE_SIZE, b.Max.X-x)` and
`th := min(TILE_SIZE, b.Max.Y-y)`), in publication order: the tile at
position `i` of this list is published with `TileID = i`. -/
def splitTiles (W H T : ℕ) : List TileRect :=
  (splitStarts H T 0).flatMap fun y =>
    (splitStarts W T 0).map fun x =>
      ⟨x, y, min T (W - x), min T (H - y)⟩

/-- Go `common.ImageTile`: a tile job payload.  `x, y` are the top-left corner
of the unpadded region, `width, height` its extent, `data` the pixel grid
actually extracted by the coordinator, `padding` half the kernel size. -/
structure ImageTile where
  imageID : ℕ
  tileID : ℕ
  x : ℕ
  y : ℕ
  width : ℕ
  height : ℕ
  data : Grid
  padding : ℕ

/-- Go `extractTileWithPadding` from `f/cmd/coordinator/main.go`: the padded
window `[tileX-padding, tileX+tileW+padding) × [tileY-padding,
tileY+tileH+padding)` is first clamped to the image bounds (`b.Min = 0`,
`b.Max = (W, H)`; truncated subtraction models `max(tileX-padding, 0)`), and
the tile data is the source image restricted to that clipped window. -/
def extractTileWithPadding (pix : ℕ → ℕ → RGBA) (W H : ℕ)
    (imageID tileID tileX tileY tileW tileH padding : ℕ) : ImageTile :=
  let sx := tileX - padding
  let sy := tileY - padding
  let ex := min (tileX + tileW + padding) W
  let ey := min (tileY + tileH + padding) H
  let pw := ex - sx
  let ph := ey - sy
  let pdata : Grid := (List.range ph).map fun y =>
    (List.range pw).map fun x => pix (sx + x) (sy + y)
  ⟨imageID, tileID, tileX, tileY, tileW, tileH, pdata, padding⟩

/-- Membership of a pixel in a tile's unpadded region. -/
def coversPix (t : TileRect) (px py : ℕ) : Prop :=
  t.x ≤ px ∧ px < t.x + t.w ∧ t.y ≤ py ∧ py < t.y + t.h

instance (t : TileRect) (px py : ℕ) : Decidable (coversPix t px py) := by
  unfold coversPix
  infer_instance

/-- An all-black 1×1 source image. -/
def onePix : ℕ → ℕ → RGBA := fun _ _ => rgba0

/-- Go `uint8(f)` conversion of the accumulated nonnegative float sums in
the blur kernel loop (truncation toward zero; all sums the program forms are
in `[0, 256)`, where the conversion is exact truncation). -/
def toUint8 (q : ℚ) : ℕ := q.floor.toNat

/-- The boundary clamp in `ApplyBlurToTile`:
`if s < 0 { s = 0 }; if s >= n { s = n - 1 }` on a Go `int`. -/
def clampIdx (v : ℤ) (n : ℕ) : ℕ :=
  let v1 : ℤ := if v < 0 then 0 else v
  let v2 : ℤ := if v1 ≥ (n : ℤ) then (n : ℤ) - 1 else v1
  v2.toNat

/-- Go `blur.ApplyBlurToTile` from `pkg/blur/blur.go`, with `float64` kernel
weights and accumulators modelled as rationals: for every output position the
kernel window is walked, sampling coordinates clamped to the data bounds, and
the four weighted channel sums are converted back to 8-bit channels. -/
def ApplyBlurToTile (data : Grid) (kernel : List (List ℚ)) : Grid :=
  let height := data.length
  let width := (data.headD []).length
  let kernelSize := kernel.length
  let offset := kernelSize / 2
  (List.range height).map fun (y : ℕ) => (List.range width).map fun (x : ℕ) =>
    let ks := (List.range kernelSize).flatMap fun ky =>
      (List.range kernelSize).map fun kx => (ky, kx)
    let term := fun (c : RGBA → ℕ) (p : ℕ × ℕ) =>
      let sx := clampIdx ((x : ℤ) + (p.2 : ℤ) - (offset : ℤ)) width
      let sy := clampIdx ((y : ℤ) + (p.1 : ℤ) - (offset : ℤ)) height
      let pixel := (data.getD sy []).getD sx rgba0
      let weight := (kernel.getD p.1 []).getD p.2 0
      (c pixel : ℚ) * weight
    ⟨toUint8 ((ks.map (term RGBA.r)).sum), toUint8 ((ks.map (term RGBA.g)).sum),
     toUint8 ((ks.map (term RGBA.b)).sum), toUint8 ((ks.map (term RGBA.a)).sum)⟩

/-- Go `blur.ExtractCenter` from `pkg/blur/blur.go` (the "FIXED VERSION"): the
output is `width × height`, sourced at offset `padding` in both directions,
with source indices clamped to the available data bounds. -/
def ExtractCenter (data : Grid) (padding width height : ℕ) : Grid :=
  (List.range height).map fun y => (List.range width).map fun x =>
    let srcY := if data.length ≤ y + padding then data.length - 1 else y + padding
    let srcX := if (data.headD []).length ≤ x + padding then
      (data.headD []).length - 1 else x + padding
    (data.getD srcY []).getD srcX rgba0

/-- Go `blur.GenerateGaussianKernel` from `pkg/blur/blur.go`, over rationals.
The transcendental pieces of the `float64` computation are abstracted:
`expQ` stands for `math.Exp` and `piQ` for `math.Pi`; everything else
(`sigma = size/3`, the centred squared distance, the final normalisation by
the total sum) mirrors the source. -/
def GenerateGaussianKernel (expQ : ℚ → ℚ) (piQ : ℚ) (size : ℕ) : List (List ℚ) :=
  let sigma : ℚ := (size : ℚ) / 3
  let center := size / 2
  let raw := (List.range size).map fun (i : ℕ) => (List.range size).map fun (j : ℕ) =>
    let x : ℚ := ((i : ℤ) - (center : ℤ) : ℤ)
    let y : ℚ := ((j : ℤ) - (center : ℤ) : ℤ)
    expQ (-(x * x + y * y) / (2 * sigma * sigma)) / (2 * piQ * sigma * sigma)
  let sum := (raw.map List.sum).sum
  raw.map (List.map fun v => v / sum)

/-- Go `common.ProcessedImageTile`: a blurred tile result. -/
structure ProcessedImageTile where
  imageID : ℕ
  tileID : ℕ
  x : ℕ
  y : ℕ
  width : ℕ
  height : ℕ
  data : Grid

/-- The processing a worker applies to one valid tile job
(`f/cmd/worker/main.go`): blur the padded data, strip the padding with
`ExtractCenter`, and repack the identity and geometry fields unchanged. -/
def processTile (kernel : List (List ℚ)) (tile : ImageTile) : ProcessedImageTile :=
  let blurred := ApplyBlurToTile tile.data kernel
  let center := ExtractCenter blurred tile.padding tile.width tile.height
  ⟨tile.imageID, tile.tileID, tile.x, tile.y, tile.width, tile.height, center⟩

/-- Modelled from the spec: "`Data` is the unpadded center region only" /
"the blurred pixels corresponding to the tile's unpadded extent".  Within the
clipped padded window (which starts at `(X - P, Y - P)`, truncated at 0) the
tile's unpadded extent starts at offset `(X - (X - P), Y - (Y - P))` — equal
to `(P, P)` for interior tiles but smaller on the top/left image border. -/
def unpaddedCenterOfBlurred (tile : ImageTile) (blurred : Grid) : Grid :=
  let offX := tile.x - (tile.x - tile.padding)
  let offY := tile.y - (tile.y - tile.padding)
  (List.range tile.height).map fun y => (List.range tile.width).map fun x =>
    (blurred.getD (offY + y) []).getD (offX + x) rgba0

/-- A 2×2 source image with four pairwise distinct pixels. -/
def img2 : ℕ → ℕ → RGBA := fun x y => ⟨x, y, 10 * x + y, 7⟩

/-- The assembler's merge loop (`f/cmd/assembler/main.go`):
`for y := 0; y < tile.Height && y < len(tile.Data); y++` and
`for x := 0; x < tile.Width && x < len(tile.Data[y]); x++`, writing
`Data[y][x]` to buffer position `(X+x, Y+y)`.  The iteration space is the
row-major list of `(y, x)` pairs with both bounds as in the source. -/
def mergeTile (buf : Grid) (t : ProcessedImageTile) : Grid :=
  ((List.range (min t.height t.data.length)).flatMap fun y =>
    (List.range (min t.width ((t.data.getD y []).length))).map fun x => (y, x)).foldl
    (fun b p => setPix b (t.x + p.2) (t.y + p.1) ((t.data.getD p.1 []).getD p.2 rgba0))
    buf

/-- The `(y, x)` iteration space of `mergeTile`. -/
def mergePairs (t : ProcessedImageTile) : List (ℕ × ℕ) :=
  (List.range (min t.height t.data.length)).flatMap fun y =>
    (List.range (min t.width ((t.data.getD y []).length))).map fun x => (y, x)

/-- Replay a list of pixel writes onto a buffer. -/
def applyWrites (buf : Grid) (ws : List ((ℕ × ℕ) × RGBA)) : Grid :=
  ws.foldl (fun b w => setPix b w.1.1 w.1.2 w.2) buf

/-- The writes performed by `mergeTile`, in order. -/
def mergeWrites (t : ProcessedImageTile) : List ((ℕ × ℕ) × RGBA) :=
  (mergePairs t).map fun p => ((t.x + p.2, t.y + p.1), (t.data.getD p.1 []).getD p.2 rgba0)

/-- The coordinator's enqueue loop (`f/cmd/coordinator/main.go`): one
`ImageTile` per grid cell, `TileID` assigned sequentially in row-major
publication order, each extracted with `extractTileWithPadding`. -/
def coordinatorTiles (pix : ℕ → ℕ → RGBA) (W H imageID T padding : ℕ) :
    List ImageTile :=
  ((splitTiles W H T).enum).map fun p =>
    extractTileWithPadding pix W H imageID p.1 p.2.x p.2.y p.2.w p.2.h padding

/-- A fresh `newRGBA` buffer, then merge every processed tile (the assembler's apply
loop, fold over arrival order). -/
def assembleTiles (W H : ℕ) (tiles : List ProcessedImageTile) : Grid :=
  tiles.foldl mergeTile (newRGBA W H)

/-- A buffer of `H` rows of `W` pixels, the shape the assembler allocates. -/
def bufShape (W H : ℕ) (g : Grid) : Prop :=
  g.length = H ∧ ∀ j, j < H → (g.getD j []).length = W

/-- A processed tile whose data is exactly the blurred-identity source
region: geometry within the image and data grid equal to the source pixels
of its unpadded extent. -/
def exactTile (pix : ℕ → ℕ → RGBA) (W H : ℕ) (u : ProcessedImageTile) : Prop :=
  u.x + u.width ≤ W ∧ u.y + u.height ≤ H ∧
  u.data = (List.range u.height).map fun yy =>
    (List.range u.width).map fun xx => pix (u.x + xx) (u.y + yy)

/-- Go `common.JobMessage`: discriminator (`Type` in Go) plus optional tile
payload.  The `ImageInfo` completion field is never set on the job path. -/
structure JobMessage where
  jobType : String
  imageTile : Option ImageTile

/-- Go `common.ResultMessage`: the processed tile plus observability fields. -/
structure ResultMessage where
  processedTile : Option ProcessedImageTile
  workerID : String
  processTime : ℚ

/-- Go `AddResult` from `f/pkg/queue/redis_streams.go`.  `json.Marshal` cannot
fail for a `ResultMessage`, and the `XADD` reply is read with `.Val()`, which
returns the empty string on a failed command and DISCARDS the error; the
function then returns a `nil` error unconditionally.  `storeOk` models
whether Redis is reachable; the second component is the returned error. -/
def AddResult (storeOk : Bool) (_res : ResultMessage) : String × Option String :=
  (if storeOk then "stream-id" else "", none)

/-- Go `AddJob` from `f/pkg/queue/redis_streams.go`: identical structure to
`AddResult` (marshal, `XAdd(...).Val()`, `return id, nil`). -/
def AddJob (storeOk : Bool) (_job : JobMessage) : String × Option String :=
  (if storeOk then "stream-id" else "", none)

/-- Go `ReadJob` from `f/pkg/queue/redis_streams.go`.  The input models the
delivered raw entry: `none` = no message within the block timeout,
`some (id, none)` = a message whose payload fails to unmarshal,
`some (id, some jm)` = a decoded message.  On unmarshal failure the function
returns `("", nil, err)` — the message id is dropped and an error reported
(third component). -/
def ReadJob (msg : Option (String × Option JobMessage)) :
    String × Option JobMessage × Bool :=
  match msg with
  | none => ("", none, false)
  | some (_id, none) => ("", none, true)
  | some (id, some jm) => (id, some jm, false)

/-- Observable queue effects of one worker-loop iteration, in program
order. -/
inductive WEvent where
  | claimStale
  | logReadError
  | logInvalidJob
  | logPushError
  | publishResult (ok : Bool)
  | ackJob (id : String)
deriving DecidableEq, Repr

/-- One iteration of the worker loop (`f/cmd/worker/main.go`): claim stale
jobs, read, on read error log and continue (no ack); on a malformed job
(wrong type or nil payload) log, ack, skip; otherwise blur, publish the
result, and ack only if `AddResult` returned no error.  Returns the ordered
event list and the processed tile, if any, that was handed to `AddResult`. -/
def workerIteration (kernel : List (List ℚ)) (storeOk : Bool)
    (msg : Option (String × Option JobMessage)) :
    List WEvent × Option ProcessedImageTile :=
  let read := ReadJob msg
  let id := read.1
  let job := read.2.1
  let readErr := read.2.2
  if readErr then ([.claimStale, .logReadError], none)
  else
    match job with
    | none => ([.claimStale], none)
    | some jm =>
      match jm.imageTile with
      | none => ([.claimStale, .logInvalidJob, .ackJob id], none)
      | some tile =>
        if jm.jobType ≠ "tile" then ([.claimStale, .logInvalidJob, .ackJob id], none)
        else
          let processed := processTile kernel tile
          let res : ResultMessage := ⟨some processed, "worker", 0⟩
          match (AddResult storeOk res).2 with
          | some _ => ([.claimStale, .publishResult storeOk, .logPushError],
              some processed)
          | none => ([.claimStale, .publishResult storeOk, .ackJob id],
              some processed)

/-- Go `common.ImageInfo`, restricted to the fields the assembler reads
(`InputPath`, `OutputPath` and the timestamps are pure observability). -/
structure ImageInfo where
  id : ℕ
  width : ℕ
  height : ℕ
  expectedTiles : ℕ
deriving DecidableEq, Repr

/-- Go `ImageAssembler` from `f/cmd/assembler/main.go`: per-image metadata and
the in-memory output buffer. -/
structure ImageAssembler where
  info : ImageInfo
  img : Grid

/-- Pointwise map update (Go map assignment / `delete`). -/
def upd {α : Type} (f : ℕ → α) (k : ℕ) (v : α) : ℕ → α :=
  fun i => if i = k then v else f i

/-- The assembler's state: the in-memory `assemblers` map, the Redis
received-tile sets (`SADD`/`SCARD` per image), and the saved output files
(`saveImage` results, keyed by image). -/
structure AsmState where
  assemblers : ℕ → Option ImageAssembler
  received : ℕ → Finset ℕ
  outputs : ℕ → Option Grid

/-- The body of the assembler iteration after the `assemblers` entry for the
tile's image is in hand: `MarkTileReceived` (atomic `SADD`, returns 0 for a
duplicate → ack and skip), else persist + merge into the buffer, ack, then
compare `GetReceivedCount` (`SCARD`) with `ExpectedTiles` and on completion
save the image and delete the in-memory entry. -/
def assemblerApply (s : AsmState) (asm : ImageAssembler)
    (tile : ProcessedImageTile) : AsmState :=
  if tile.tileID ∈ s.received tile.imageID then
    s
  else if asm.info.expectedTiles ≤ (insert tile.tileID (s.received tile.imageID)).card then
    ⟨upd s.assemblers tile.imageID none,
     upd s.received tile.imageID (insert tile.tileID (s.received tile.imageID)),
     upd s.outputs tile.imageID (some (mergeTile asm.img tile))⟩
  else
    ⟨upd s.assemblers tile.imageID (some ⟨asm.info, mergeTile asm.img tile⟩),
     upd s.received tile.imageID (insert tile.tileID (s.received tile.imageID)),
     s.outputs⟩

/-- One iteration of the assembler loop (`f/cmd/assembler/main.go`) on a
delivered result: a `nil` `ProcessedTile` is logged, acked and skipped; an
unknown image whose `GetImageInfo` lookup fails is logged, acked and
skipped; otherwise the per-image assembler entry is created on first contact
(fresh `Width×Height` buffer) and the tile applied. -/
def assemblerStep (info : ℕ → Option ImageInfo) (s : AsmState)
    (res : Option ProcessedImageTile) : AsmState :=
  match res with
  | none => s
  | some tile =>
    match s.assemblers tile.imageID with
    | some asm => assemblerApply s asm tile
    | none =>
      match info tile.imageID with
      | none => s
      | some inf =>
        let asm : ImageAssembler := ⟨inf, newRGBA inf.width inf.height⟩
        assemblerApply
          ⟨upd s.assemblers tile.imageID (some asm), s.received, s.outputs⟩
          asm tile

/-- Initial assembler state: empty map, empty received sets, no outputs. -/
def initAsmState : AsmState := ⟨fun _ => none, fun _ => ∅, fun _ => none⟩

/-- The assembler processing a sequence of deliveries in order. -/
def assemblerRun (info : ℕ → Option ImageInfo)
    (msgs : List (Option ProcessedImageTile)) : AsmState :=
  msgs.foldl (assemblerStep info) initAsmState

/-- A delivery the rest of the system can actually produce: results
originate from jobs the coordinator published, so the image has a stored
`ImageInfo` and the `TileID` is one of the `ExpectedTiles` ids `0..n-1`. -/
def ValidDelivery (info : ℕ → Option ImageInfo)
    (res : Option ProcessedImageTile) : Prop :=
  ∀ tile, res = some tile → ∃ inf, info tile.imageID = some inf ∧
    tile.tileID < inf.expectedTiles

/-- Every stored `ImageInfo` expects at least one tile (decoded images are
nonempty, so the coordinator's grid has `ceil(W/T)·ceil(H/T) ≥ 1` cells). -/
def InfoPos (info : ℕ → Option ImageInfo) : Prop :=
  ∀ img inf, info img = some inf → 0 < inf.expectedTiles

/-- The assembler's running invariant, per image with stored metadata:
received ids stay within range, the output exists exactly when the received
count reached `ExpectedTiles`, an absent in-memory entry means either
nothing received yet or the image completed, and live entries carry the
stored metadata. -/
def AsmInv (info : ℕ → Option ImageInfo) (s : AsmState) : Prop :=
  ∀ img inf, info img = some inf →
    (s.received img ⊆ Finset.range inf.expectedTiles) ∧
    ((s.outputs img).isSome ↔ (s.received img).card = inf.expectedTiles) ∧
    (s.assemblers img = none →
      s.received img = ∅ ∨ (s.received img).card = inf.expectedTiles) ∧
    (∀ e, s.assemblers img = some e → e.info = inf)

/-- A one-image, one-tile metadata store for the witnesses. -/
def info1 : ℕ → Option ImageInfo := fun i => if i = 0 then some ⟨0, 1, 1, 1⟩ else none

/-- The single expected result tile of the `info1` image. -/
def tile1 : ProcessedImageTile := ⟨0, 0, 0, 0, 1, 1, [[⟨5, 6, 7, 8⟩]]⟩

/-- Bisimulation relation for duplicate-delivery idempotence: equal received
sets and equal saved outputs; the in-memory `assemblers` entries agree except
possibly for images that have already completed (all expected tiles
received), whose entries can never influence the outputs again because every
further delivery for them is a duplicate. -/
def OutAgree (info : ℕ → Option ImageInfo) (s t : AsmState) : Prop :=
  s.received = t.received ∧ s.outputs = t.outputs ∧
  ∀ img, s.assemblers img = t.assemblers img ∨
    (∃ inf, info img = some inf ∧ inf.expectedTiles ≤ (s.received img).card)

lemma splitStarts_eq_range {T : ℕ} (hT : 0 < T) :
    ∀ b x, splitStarts b T x = (List.range (ceilDiv (b - x) T)).map fun k => x + k * T := by
  have main : ∀ m b x, b - x ≤ m →
      splitStarts b T x = (List.range (ceilDiv (b - x) T)).map fun k => x + k * T := by
    intro m
    induction m with
    | zero =>
      intro b x h
      rw [splitStarts]
      have hx : ¬ x < b := by omega
      have h0 : b - x = 0 := by omega
      simp [hx, h0, ceilDiv, Nat.div_eq_of_lt (by omega : T - 1 < T)]
    | succ m ih =>
      intro b x h
      rw [splitStarts]
      by_cases hx : x < b
      · have hceil : ceilDiv (b - x) T = ceilDiv (b - (x + T)) T + 1 := by
          unfold ceilDiv
          rcases le_or_lt (b - x) T with hle | hgt
          · have h1 : b - (x + T) = 0 := by omega
            have h2 : (0 + T - 1) / T = 0 := Nat.div_eq_of_lt (by omega)
            have h3 : b - x + T - 1 = (b - x - 1) + T := by omega
            have h4 : (b - x - 1) / T = 0 := Nat.div_eq_of_lt (by omega)
            rw [h1, h2, h3, Nat.add_div_right _ hT, h4]
          · have h1 : b - (x + T) + T - 1 = b - x - 1 := by omega
            have h2 : b - x + T - 1 = (b - x - 1) + T := by omega
            rw [h1, h2, Nat.add_div_right _ hT]
        rw [dif_pos ⟨hT, hx⟩, ih b (x + T) (by omega), hceil, List.range_succ_eq_map]
        simp only [List.map_cons, List.map_map, Nat.zero_mul, Nat.add_zero]
        refine congrArg (x :: ·) ?_
        apply List.map_congr_left
        intro k _
        simp only [Function.comp_apply, Nat.succ_eq_add_one]
        ring
      · have h0 : b - x = 0 := by omega
        simp [hx, h0, ceilDiv, Nat.div_eq_of_lt (by omega : T - 1 < T)]
  intro b x
  exact main (b - x) b x le_rfl

lemma splitStarts_zero {T : ℕ} (hT : 0 < T) (b : ℕ) :
    splitStarts b T 0 = (List.range (ceilDiv b T)).map fun k => k * T := by
  rw [splitStarts_eq_range hT b 0]
  simp

/-- Flattening a uniform double loop: the row-major index formula. -/
lemma flatMap_range_eq_map_range {α : Type} (f : ℕ → ℕ → α) (cH cW : ℕ) :
    ((List.range cH).flatMap fun j => (List.range cW).map fun i => f j i) =
      (List.range (cH * cW)).map fun i => f (i / cW) (i % cW) := by
  rcases Nat.eq_zero_or_pos cW with hcW | hcW
  · subst hcW
    simp
  induction cH with
  | zero => simp
  | succ n ih =>
    rw [List.range_succ, List.flatMap_append, ih]
    have hra : List.range ((n + 1) * cW) = List.range (n * cW) ++
        (List.range cW).map fun k => n * cW + k := by
      have : (n + 1) * cW = n * cW + cW := by ring
      rw [this, List.range_add]
    rw [hra, List.map_append]
    refine congrArg (_ ++ ·) ?_
    simp only [List.flatMap_singleton, List.map_map]
    apply List.map_congr_left
    intro k hk
    have hk' : k < cW := List.mem_range.mp hk
    have hdiv : (n * cW + k) / cW = n := by
      rw [Nat.mul_comm n cW, Nat.mul_add_div hcW, Nat.div_eq_of_lt hk']
      omega
    have hmod : (n * cW + k) % cW = k := by
      rw [Nat.mul_comm n cW, Nat.mul_add_mod, Nat.mod_eq_of_lt hk']
    simp only [Function.comp_apply, hdiv, hmod]

/-- Row-major closed form of the tiling grid: tile number `i` sits at column
`i % tilesX` and row `i / tilesX`. -/
lemma splitTiles_eq_map_range {W H T : ℕ} (hT : 0 < T) :
    splitTiles W H T = (List.range (ceilDiv H T * ceilDiv W T)).map fun i =>
      ⟨i % ceilDiv W T * T, i / ceilDiv W T * T,
       min T (W - i % ceilDiv W T * T), min T (H - i / ceilDiv W T * T)⟩ := by
  unfold splitTiles
  rw [splitStarts_zero hT W, splitStarts_zero hT H, List.flatMap_map]
  have h1 : ((List.range (ceilDiv H T)).flatMap fun j =>
      (List.range (ceilDiv W T)).map fun i =>
        (⟨i * T, j * T, min T (W - i * T), min T (H - j * T)⟩ : TileRect)) =
      (List.range (ceilDiv H T * ceilDiv W T)).map fun i =>
        ⟨i % ceilDiv W T * T, i / ceilDiv W T * T,
         min T (W - i % ceilDiv W T * T), min T (H - i / ceilDiv W T * T)⟩ :=
    flatMap_range_eq_map_range
      (fun j i => (⟨i * T, j * T, min T (W - i * T), min T (H - j * T)⟩ : TileRect))
      (ceilDiv H T) (ceilDiv W T)
  rw [← h1]
  refine congrArg _ ?_
  funext j
  rw [List.map_map]
  rfl

lemma ceilDiv_pos {n T : ℕ} (hT : 0 < T) (hn : 0 < n) : 0 < ceilDiv n T :=
  Nat.div_pos (by omega) hT

lemma div_lt_ceilDiv {n T p : ℕ} (hT : 0 < T) (hp : p < n) : p / T < ceilDiv n T := by
  have h1 : ceilDiv n T = (n - 1) / T + 1 := by
    unfold ceilDiv
    have h2 : n + T - 1 = (n - 1) + T := by omega
    rw [h2, Nat.add_div_right _ hT]
  rw [h1]
  have := Nat.div_le_div_right (c := T) (by omega : p ≤ n - 1)
  omega

/-- One-dimensional coverage: a pixel column `px < W` lies in the horizontal
extent of the tile starting at `q * T` exactly when `q = px / T`. -/
lemma cover1D {T W px q : ℕ} (hT : 0 < T) (hpx : px < W) :
    (q * T ≤ px ∧ px < q * T + min T (W - q * T)) ↔ q = px / T := by
  have hdm := Nat.div_add_mod px T
  have hbr : T * (px / T) = px / T * T := Nat.mul_comm _ _
  have hm : px % T < T := Nat.mod_lt _ hT
  have hmin1 : min T (W - q * T) ≤ T := min_le_left _ _
  constructor
  · rintro ⟨h1, h2⟩
    have h3 : px < q * T + T := by omega
    rcases Nat.lt_trichotomy q (px / T) with h | h | h
    · exfalso
      have h4 : (q + 1) * T ≤ px / T * T := Nat.mul_le_mul_right _ (by omega)
      rw [Nat.succ_mul] at h4
      have h5 : px / T * T ≤ px := Nat.div_mul_le_self px T
      omega
    · exact h
    · exfalso
      have h4 : (px / T + 1) * T ≤ q * T := Nat.mul_le_mul_right _ (by omega)
      rw [Nat.succ_mul] at h4
      omega
  · rintro rfl
    have h1 : px / T * T ≤ px := Nat.div_mul_le_self px T
    refine ⟨h1, ?_⟩
    rcases le_total T (W - px / T * T) with hmm | hmm
    · rw [min_eq_left hmm]
      omega
    · rw [min_eq_right hmm]
      omega

lemma countP_range_eq_ite (c N : ℕ) :
    (List.range N).countP (fun i => decide (i = c)) = if c < N then 1 else 0 := by
  induction N with
  | zero => simp
  | succ n ih =>
    rw [List.range_succ, List.countP_append, ih]
    by_cases h : c = n
    · subst h
      simp [List.countP_cons]
    · by_cases h2 : c < n
      · have h3 : c < n + 1 := by omega
        simp [List.countP_cons, h, h2, h3, Ne.symm h]
      · have h3 : ¬ c < n + 1 := by omega
        simp [List.countP_cons, h, h2, h3, Ne.symm h]

lemma splitTiles_countP_one {W H T px py : ℕ} (hT : 0 < T) (hx : px < W) (hy : py < H) :
    (splitTiles W H T).countP (fun t => decide (coversPix t px py)) = 1 := by
  have hcW : 0 < ceilDiv W T := ceilDiv_pos hT (by omega)
  have hdx : px / T < ceilDiv W T := div_lt_ceilDiv hT hx
  have hdy : py / T < ceilDiv H T := div_lt_ceilDiv hT hy
  rw [splitTiles_eq_map_range hT, List.countP_map]
  have hkey : ∀ i, ((fun t => decide (coversPix t px py)) ∘ fun i =>
      (⟨i % ceilDiv W T * T, i / ceilDiv W T * T,
        min T (W - i % ceilDiv W T * T), min T (H - i / ceilDiv W T * T)⟩ : TileRect)) i =
      decide (i = py / T * ceilDiv W T + px / T) := by
    intro i
    simp only [Function.comp_apply, decide_eq_decide]
    unfold coversPix
    constructor
    · rintro ⟨ha, hb, hc, hd⟩
      have h1 : i % ceilDiv W T = px / T := (cover1D hT hx).mp ⟨ha, hb⟩
      have h2 : i / ceilDiv W T = py / T := (cover1D hT hy).mp ⟨hc, hd⟩
      have h3 := Nat.div_add_mod i (ceilDiv W T)
      have h4 : ceilDiv W T * (i / ceilDiv W T) = i / ceilDiv W T * ceilDiv W T :=
        Nat.mul_comm _ _
      have h5 : i / ceilDiv W T * ceilDiv W T = py / T * ceilDiv W T := by rw [h2]
      omega
    · rintro rfl
      have hmod : (py / T * ceilDiv W T + px / T) % ceilDiv W T = px / T := by
        rw [Nat.mul_comm (py / T) (ceilDiv W T), Nat.mul_add_mod, Nat.mod_eq_of_lt hdx]
      have hdiv : (py / T * ceilDiv W T + px / T) / ceilDiv W T = py / T := by
        rw [Nat.mul_comm (py / T) (ceilDiv W T), Nat.mul_add_div hcW,
          Nat.div_eq_of_lt hdx]
        omega
      rw [hmod, hdiv]
      have hh1 := (cover1D hT hx).mpr rfl
      have hh2 := (cover1D hT hy).mpr rfl
      exact ⟨hh1.1, hh1.2, hh2.1, hh2.2⟩
  rw [funext hkey, countP_range_eq_ite]
  have h5 : (py / T + 1) * ceilDiv W T ≤ ceilDiv H T * ceilDiv W T :=
    Nat.mul_le_mul_right _ (by omega)
  rw [Nat.succ_mul] at h5
  have h6 : py / T * ceilDiv W T + px / T < ceilDiv H T * ceilDiv W T := by omega
  simp [h6]

/-- C2: for an image of size `W×H` and tile edge `T > 0` the coordinator's
split produces exactly `ceil(W/T) * ceil(H/T)` tiles; the tile published with
`TileID = i` (position `i` of the list) is the row-major tile at column
`i % tilesX` and row `i / tilesX` with unpadded extent
`min T (W - x) × min T (H - y)` (so edge tiles are narrower/shorter, never
padded to full size); and every pixel of `[0,W) × [0,H)` lies in exactly one
tile's unpadded region (no overlap, no gap). -/
theorem coordinator_split_row_major_partition (W H T : ℕ) (hT : 0 < T) :
    (splitTiles W H T).length = ceilDiv W T * ceilDiv H T ∧
    splitTiles W H T = (List.range (ceilDiv H T * ceilDiv W T)).map (fun i =>
      ⟨i % ceilDiv W T * T, i / ceilDiv W T * T,
       min T (W - i % ceilDiv W T * T), min T (H - i / ceilDiv W T * T)⟩) ∧
    (∀ px py, px < W → py < H →
      (splitTiles W H T).countP (fun t => decide (coversPix t px py)) = 1) := by
  refine ⟨?_, splitTiles_eq_map_range hT,
    fun px py hx hy => splitTiles_countP_one hT hx hy⟩
  rw [splitTiles_eq_map_range hT]
  simp [Nat.mul_comm]

/-- Witness for C2 at the concrete instance `W = 5`, `H = 3`, `T = 2`. -/
theorem coordinator_split_row_major_partition_witness :
    0 < 2 ∧
    ((splitTiles 5 3 2).length = ceilDiv 5 2 * ceilDiv 3 2 ∧
    splitTiles 5 3 2 = (List.range (ceilDiv 3 2 * ceilDiv 5 2)).map (fun i =>
      ⟨i % ceilDiv 5 2 * 2, i / ceilDiv 5 2 * 2,
       min 2 (5 - i % ceilDiv 5 2 * 2), min 2 (3 - i / ceilDiv 5 2 * 2)⟩) ∧
    (∀ px py, px < 5 → py < 3 →
      (splitTiles 5 3 2).countP (fun t => decide (coversPix t px py)) = 1)) :=
  ⟨by decide, coordinator_split_row_major_partition 5 3 2 (by decide)⟩

lemma getD_map_range {α : Type} (f : ℕ → α) {n i : ℕ} (d : α) (h : i < n) :
    ((List.range n).map f).getD i d = f i := by
  rw [List.getD_eq_getElem?_getD]
  simp [List.getElem?_map, List.getElem?_range, h]

lemma getD_map_range_ge {α : Type} (f : ℕ → α) {n i : ℕ} (d : α) (h : n ≤ i) :
    ((List.range n).map f).getD i d = d := by
  rw [List.getD_eq_getElem?_getD]
  rw [List.getElem?_eq_none (by simpa using h)]
  rfl

/-- C5, counterexample: for the single tile of a 1×1 image with padding 1,
the extracted `Data` is a 1×1 grid, not the `(Width+2·Padding) ×
(Height+2·Padding) = 3×3` clamp-extended grid the claim requires. -/
theorem extract_padding_not_clamped_counterexample :
    ((extractTileWithPadding onePix 1 1 0 0 0 0 1 1 1).data).length ≠
      (extractTileWithPadding onePix 1 1 0 0 0 0 1 1 1).height +
        2 * (extractTileWithPadding onePix 1 1 0 0 0 0 1 1 1).padding := by
  decide

/-- C5, amended: the tile's `Data` is the source image restricted to the
padded window *clipped to the image bounds* — its size is
`(min(X+W+P, imgW) - (X-P)) × (min(Y+H+P, imgH) - (Y-P))` (with truncated
subtraction clamping at 0), every entry is the true source pixel at the
corresponding coordinate (never synthetic, zero-filled, or wrapped), and for
tiles whose padded window lies fully inside the image the size is exactly
`(W+2·P) × (H+2·P)`. -/
theorem extract_padding_clipped_window (pix : ℕ → ℕ → RGBA)
    (W H iid tid tx ty tw th P : ℕ) :
    ((extractTileWithPadding pix W H iid tid tx ty tw th P).data).length =
      min (ty + th + P) H - (ty - P) ∧
    (∀ row ∈ (extractTileWithPadding pix W H iid tid tx ty tw th P).data,
      row.length = min (tx + tw + P) W - (tx - P)) ∧
    (∀ yy xx, yy < min (ty + th + P) H - (ty - P) →
      xx < min (tx + tw + P) W - (tx - P) →
      getPix (extractTileWithPadding pix W H iid tid tx ty tw th P).data xx yy =
        pix (tx - P + xx) (ty - P + yy)) ∧
    (P ≤ tx → P ≤ ty → tx + tw + P ≤ W → ty + th + P ≤ H →
      ((extractTileWithPadding pix W H iid tid tx ty tw th P).data).length =
        th + 2 * P ∧
      ∀ row ∈ (extractTileWithPadding pix W H iid tid tx ty tw th P).data,
        row.length = tw + 2 * P) := by
  refine ⟨?_, ?_, ?_, ?_⟩
  · simp [extractTileWithPadding]
  · intro row hrow
    simp only [extractTileWithPadding, List.mem_map] at hrow
    obtain ⟨i, _, rfl⟩ := hrow
    simp
  · intro yy xx hyy hxx
    unfold getPix extractTileWithPadding
    simp only []
    rw [getD_map_range _ _ hyy, getD_map_range _ _ hxx]
  · intro h1 h2 h3 h4
    constructor
    · simp only [extractTileWithPadding]
      simp only [List.length_map, List.length_range]
      omega
    · intro row hrow
      simp only [extractTileWithPadding, List.mem_map] at hrow
      obtain ⟨i, _, rfl⟩ := hrow
      simp only [List.length_map, List.length_range]
      omega

/-- Witness for C5's amended theorem at a concrete interior tile:
a 10×10 image, tile at `(4,4)` of extent `2×2`, padding 1. -/
theorem extract_padding_clipped_window_witness :
    ((extractTileWithPadding onePix 10 10 0 0 4 4 2 2 1).data).length =
      min (4 + 2 + 1) 10 - (4 - 1) ∧
    (∀ row ∈ (extractTileWithPadding onePix 10 10 0 0 4 4 2 2 1).data,
      row.length = min (4 + 2 + 1) 10 - (4 - 1)) ∧
    (∀ yy xx, yy < min (4 + 2 + 1) 10 - (4 - 1) →
      xx < min (4 + 2 + 1) 10 - (4 - 1) →
      getPix (extractTileWithPadding onePix 10 10 0 0 4 4 2 2 1).data xx yy =
        onePix (4 - 1 + xx) (4 - 1 + yy)) ∧
    (1 ≤ 4 → 1 ≤ 4 → 4 + 2 + 1 ≤ 10 → 4 + 2 + 1 ≤ 10 →
      ((extractTileWithPadding onePix 10 10 0 0 4 4 2 2 1).data).length =
        2 + 2 * 1 ∧
      ∀ row ∈ (extractTileWithPadding onePix 10 10 0 0 4 4 2 2 1).data,
        row.length = 2 + 2 * 1) :=
  extract_padding_clipped_window onePix 10 10 0 0 4 4 2 2 1

/-- Whatever finite nonzero values the float exponential and `math.Pi` take,
the size-1 kernel normalises to the single weight `1` (`v / v = 1`). -/
lemma gaussianKernel_one (expQ : ℚ → ℚ) (piQ : ℚ)
    (he : expQ 0 ≠ 0) (hp : piQ ≠ 0) :
    GenerateGaussianKernel expQ piQ 1 = [[1]] := by
  unfold GenerateGaussianKernel
  simp only [show List.range 1 = [0] from rfl, List.map_cons, List.map_nil,
    List.sum_cons, List.sum_nil, add_zero]
  norm_num
  rw [div_self]
  apply div_ne_zero he
  intro hcon
  apply hp
  field_simp at hcon

lemma headD_map_range {α : Type} (f : ℕ → α) {n : ℕ} (d : α) (h : 0 < n) :
    ((List.range n).map f).headD d = f 0 := by
  cases n with
  | zero => omega
  | succ m => rw [List.range_succ_eq_map]; rfl

lemma clampIdx_of_lt {v n : ℕ} (h : v < n) : clampIdx (v : ℤ) n = v := by
  unfold clampIdx
  have h1 : ¬ ((v : ℤ) < 0) := by omega
  have h2 : ¬ ((v : ℤ) ≥ (n : ℤ)) := by exact_mod_cast not_le.mpr h
  simp [h1, h2]

lemma toUint8_natCast (n : ℕ) : toUint8 ((n : ℕ) : ℚ) = n := by
  unfold toUint8
  have h : ((n : ℕ) : ℚ).floor = (n : ℤ) := Int.floor_natCast (α := ℚ) n
  rw [h]
  exact Int.toNat_natCast n

/-- Blurring with the identity 1×1 kernel `[[1]]` returns the input grid
unchanged (stated for a rectangular grid given by an entry function, the
shape every grid in the pipeline has). -/
lemma applyBlur_one (f : ℕ → ℕ → RGBA) {w h : ℕ} (_hw : 0 < w) (hh : 0 < h) :
    ApplyBlurToTile ((List.range h).map fun y => (List.range w).map fun x => f x y)
        [[(1 : ℚ)]] =
      (List.range h).map fun y => (List.range w).map fun x => f x y := by
  unfold ApplyBlurToTile
  simp only [List.length_map, List.length_range, List.length_cons, List.length_nil]
  rw [headD_map_range _ _ hh]
  simp only [List.length_map, List.length_range]
  apply List.map_congr_left
  intro y hy
  apply List.map_congr_left
  intro x hx
  have hy' : y < h := List.mem_range.mp hy
  have hx' : x < w := List.mem_range.mp hx
  have hks : ((List.range (0 + 1)).flatMap fun ky =>
      (List.range (0 + 1)).map fun kx => (ky, kx)) = [(0, 0)] := rfl
  simp only [Nat.zero_add, hks, List.map_cons, List.map_nil, List.sum_cons,
    List.sum_nil, add_zero]
  have hoff : ((0 + 1) / 2 : ℕ) = 0 := rfl
  have hsx : clampIdx ((x : ℤ) + ((0 : ℕ) : ℤ) - (((0 + 1) / 2 : ℕ) : ℤ)) w = x := by
    rw [hoff]
    have : (x : ℤ) + ((0 : ℕ) : ℤ) - ((0 : ℕ) : ℤ) = (x : ℤ) := by push_cast; ring
    rw [this]
    exact clampIdx_of_lt hx'
  have hsy : clampIdx ((y : ℤ) + ((0 : ℕ) : ℤ) - (((0 + 1) / 2 : ℕ) : ℤ)) h = y := by
    rw [hoff]
    have : (y : ℤ) + ((0 : ℕ) : ℤ) - ((0 : ℕ) : ℤ) = (y : ℤ) := by push_cast; ring
    rw [this]
    exact clampIdx_of_lt hy'
  simp only [hsx, hsy]
  rw [getD_map_range _ _ hy', getD_map_range _ _ hx']
  simp only [List.getD_cons_zero, mul_one]
  rw [toUint8_natCast, toUint8_natCast, toUint8_natCast, toUint8_natCast]

/-- C6, failing input: the single tile of a 2×2 image at `(X, Y) = (0, 0)`
with `Padding = 1` (so the clipped window has no top/left padding rows),
blurred with the identity 1×1 kernel.  `ExtractCenter` still offsets by
`padding` (clamping indices to the available data), so every emitted pixel is
the blurred pixel at image coordinate `(1, 1)` — not the blurred pixels of
the tile's unpadded extent, which here are the four distinct source pixels.
The identity fields are forwarded unchanged, but the data is shifted. -/
theorem worker_center_misaligned_on_border_tile :
    (processTile [[(1 : ℚ)]] (extractTileWithPadding img2 2 2 0 0 0 0 2 2 1)).data =
      [[img2 1 1, img2 1 1], [img2 1 1, img2 1 1]] ∧
    unpaddedCenterOfBlurred (extractTileWithPadding img2 2 2 0 0 0 0 2 2 1)
        (ApplyBlurToTile (extractTileWithPadding img2 2 2 0 0 0 0 2 2 1).data
          [[(1 : ℚ)]]) =
      [[img2 0 0, img2 1 0], [img2 0 1, img2 1 1]] ∧
    (processTile [[(1 : ℚ)]] (extractTileWithPadding img2 2 2 0 0 0 0 2 2 1)).data ≠
      unpaddedCenterOfBlurred (extractTileWithPadding img2 2 2 0 0 0 0 2 2 1)
        (ApplyBlurToTile (extractTileWithPadding img2 2 2 0 0 0 0 2 2 1).data
          [[(1 : ℚ)]]) := by
  have hdata : (extractTileWithPadding img2 2 2 0 0 0 0 2 2 1).data =
      (List.range 2).map fun y => (List.range 2).map fun x =>
        (fun (u v : ℕ) => img2 (0 - 1 + u) (0 - 1 + v)) x y := rfl
  have hblur : ApplyBlurToTile
      (extractTileWithPadding img2 2 2 0 0 0 0 2 2 1).data [[(1 : ℚ)]] =
      (extractTileWithPadding img2 2 2 0 0 0 0 2 2 1).data := by
    rw [hdata]
    exact applyBlur_one (fun (u v : ℕ) => img2 (0 - 1 + u) (0 - 1 + v))
      (by omega) (by omega)
  have hPT : (processTile [[(1 : ℚ)]]
      (extractTileWithPadding img2 2 2 0 0 0 0 2 2 1)).data =
      ExtractCenter (ApplyBlurToTile
        (extractTileWithPadding img2 2 2 0 0 0 0 2 2 1).data [[(1 : ℚ)]]) 1 2 2 := rfl
  refine ⟨?_, ?_, ?_⟩
  · rw [hPT, hblur]
    decide
  · rw [hblur]
    decide
  · rw [hPT, hblur]
    decide

lemma mergeTile_eq_applyWrites (buf : Grid) (t : ProcessedImageTile) :
    mergeTile buf t = applyWrites buf (mergeWrites t) := by
  unfold mergeTile applyWrites mergeWrites mergePairs
  rw [List.foldl_map]

lemma length_setPix (g : Grid) (a b : ℕ) (v : RGBA) :
    (setPix g a b v).length = g.length := List.length_set _ _ _

lemma rowlen_setPix (g : Grid) (a b j : ℕ) (v : RGBA) :
    ((setPix g a b v).getD j []).length = (g.getD j []).length := by
  unfold setPix
  by_cases hj : b = j
  · subst hj
    by_cases hb : b < g.length
    · rw [List.getD_eq_getElem?_getD, List.getElem?_set_eq_of_lt _ hb]
      rw [List.getD_eq_getElem?_getD, List.getElem?_eq_getElem hb]
      simp
    · rw [List.set_eq_of_length_le (by omega)]
  · rw [List.getD_eq_getElem?_getD, List.getElem?_set_ne hj,
      ← List.getD_eq_getElem?_getD]

lemma getPix_setPix_ne {a b px py : ℕ} (g : Grid) (v : RGBA)
    (h : a ≠ px ∨ b ≠ py) : getPix (setPix g a b v) px py = getPix g px py := by
  unfold getPix setPix
  simp only [List.getD_eq_getElem?_getD]
  rcases h with h | h
  · by_cases hb : b = py
    · subst hb
      by_cases hlen : b < g.length
      · rw [List.getElem?_set_eq_of_lt _ hlen]
        simp only [Option.getD_some]
        rw [List.getElem?_set_ne h, List.getElem?_eq_getElem hlen]
      · rw [List.set_eq_of_length_le (by omega)]
    · rw [List.getElem?_set_ne hb]
  · rw [List.getElem?_set_ne h]

lemma getPix_setPix_self {a b : ℕ} (g : Grid) (v : RGBA)
    (hb : b < g.length) (ha : a < (g.getD b []).length) :
    getPix (setPix g a b v) a b = v := by
  unfold getPix setPix
  simp only [List.getD_eq_getElem?_getD]
  rw [List.getElem?_set_eq_of_lt _ hb]
  simp only [Option.getD_some]
  rw [List.getElem?_set_eq_of_lt _ (by rw [List.getD_eq_getElem?_getD] at ha; exact ha)]
  rfl

lemma applyWrites_length (ws : List ((ℕ × ℕ) × RGBA)) (buf : Grid) :
    (applyWrites buf ws).length = buf.length := by
  induction ws generalizing buf with
  | nil => rfl
  | cons w ws ih =>
    show (applyWrites (setPix buf w.1.1 w.1.2 w.2) ws).length = _
    rw [ih, length_setPix]

lemma applyWrites_rowlen (ws : List ((ℕ × ℕ) × RGBA)) (buf : Grid) (j : ℕ) :
    ((applyWrites buf ws).getD j []).length = (buf.getD j []).length := by
  induction ws generalizing buf with
  | nil => rfl
  | cons w ws ih =>
    show ((applyWrites (setPix buf w.1.1 w.1.2 w.2) ws).getD j []).length = _
    rw [ih, rowlen_setPix]

lemma getPix_applyWrites_of_notMem (ws : List ((ℕ × ℕ) × RGBA)) (buf : Grid)
    {px py : ℕ} (h : ∀ w ∈ ws, w.1 ≠ (px, py)) :
    getPix (applyWrites buf ws) px py = getPix buf px py := by
  induction ws generalizing buf with
  | nil => rfl
  | cons w ws ih =>
    show getPix (applyWrites (setPix buf w.1.1 w.1.2 w.2) ws) px py = _
    rw [ih _ (fun u hu => h u (List.mem_cons_of_mem _ hu))]
    apply getPix_setPix_ne
    have hne := h w (List.mem_cons_self _ _)
    by_cases h1 : w.1.1 = px
    · right
      intro h2
      exact hne (Prod.ext h1 h2)
    · left
      exact h1

lemma getPix_applyWrites_last (l1 l2 : List ((ℕ × ℕ) × RGBA)) (buf : Grid)
    {px py : ℕ} (v : RGBA) (h2 : ∀ w ∈ l2, w.1 ≠ (px, py))
    (hb : py < buf.length) (ha : px < (buf.getD py []).length) :
    getPix (applyWrites buf (l1 ++ ((px, py), v) :: l2)) px py = v := by
  unfold applyWrites
  rw [List.foldl_append]
  show getPix (applyWrites (setPix (applyWrites buf l1) px py v) l2) px py = v
  rw [getPix_applyWrites_of_notMem _ _ h2]
  apply getPix_setPix_self
  · rw [applyWrites_length]
    exact hb
  · rw [applyWrites_rowlen]
    exact ha

lemma mem_mergeWrites {t : ProcessedImageTile} {w : (ℕ × ℕ) × RGBA} :
    w ∈ mergeWrites t ↔ ∃ yy xx, yy < min t.height t.data.length ∧
      xx < min t.width ((t.data.getD yy []).length) ∧
      w = ((t.x + xx, t.y + yy), (t.data.getD yy []).getD xx rgba0) := by
  unfold mergeWrites mergePairs
  simp only [List.mem_map, List.mem_flatMap, List.mem_range]
  constructor
  · rintro ⟨p, ⟨yy, hyy, xx, hxx, rfl⟩, rfl⟩
    exact ⟨yy, xx, hyy, hxx, rfl⟩
  · rintro ⟨yy, xx, hyy, hxx, rfl⟩
    exact ⟨(yy, xx), ⟨yy, hyy, xx, hxx, rfl⟩, rfl⟩

/-- C10: if a merge changes a buffer pixel, that pixel lies at `(X+x, Y+y)`
for some `0 ≤ y < min(Height, len(Data))` and `0 ≤ x < min(Width,
len(Data[y]))` — the merge loop never reads `Data` out of bounds and never
writes outside the tile's declared extent, even when `Data` has fewer rows or
shorter rows than `Width × Height`. -/
theorem assembler_merge_writes_within_extent (buf : Grid) (t : ProcessedImageTile)
    (px py : ℕ) (hne : getPix (mergeTile buf t) px py ≠ getPix buf px py) :
    ∃ yy xx, yy < min t.height t.data.length ∧
      xx < min t.width ((t.data.getD yy []).length) ∧
      px = t.x + xx ∧ py = t.y + yy := by
  by_contra hcon
  push_neg at hcon
  apply hne
  rw [mergeTile_eq_applyWrites]
  apply getPix_applyWrites_of_notMem
  intro w hw
  rw [mem_mergeWrites] at hw
  obtain ⟨yy, xx, h1, h2, rfl⟩ := hw
  intro heq
  have hx : t.x + xx = px := congrArg Prod.fst heq
  have hy : t.y + yy = py := congrArg Prod.snd heq
  exact hcon yy xx h1 h2 hx.symm hy.symm

/-- Witness for C10: merging a 1×1 tile into a 1×1 buffer changes pixel
`(0,0)`, which indeed lies within the tile's declared extent. -/
theorem assembler_merge_writes_within_extent_witness :
    (getPix (mergeTile [[rgba0]] ⟨0, 0, 0, 0, 1, 1, [[⟨1, 2, 3, 4⟩]]⟩) 0 0 ≠
      getPix [[rgba0]] 0 0) ∧
    (∃ yy xx,
      yy < min (1 : ℕ) ([[(⟨1, 2, 3, 4⟩ : RGBA)]] : Grid).length ∧
      xx < min (1 : ℕ) ((([[(⟨1, 2, 3, 4⟩ : RGBA)]] : Grid).getD yy []).length) ∧
      (0 : ℕ) = 0 + xx ∧ (0 : ℕ) = 0 + yy) :=
  ⟨by decide,
    assembler_merge_writes_within_extent [[rgba0]] ⟨0, 0, 0, 0, 1, 1, [[⟨1, 2, 3, 4⟩]]⟩
      0 0 (by decide)⟩

lemma range_split_aux (i m : ℕ) :
    List.range (i + (m + 1)) = List.range i ++ i :: (List.range m).map fun k => i + 1 + k := by
  rw [List.range_add, List.range_succ_eq_map]
  simp only [List.map_cons, List.map_map, Nat.add_zero]
  refine congrArg (List.range i ++ ·) (congrArg (i :: ·) ?_)
  apply List.map_congr_left
  intro k _
  simp only [Function.comp_apply, Nat.succ_eq_add_one]
  omega

lemma range_split {n i : ℕ} (h : i < n) :
    List.range n = List.range i ++ i :: (List.range (n - i - 1)).map fun k => i + 1 + k := by
  have h1 : n = i + (n - i - 1 + 1) := by omega
  calc List.range n = List.range (i + (n - i - 1 + 1)) := by rw [← h1]
  _ = List.range i ++ i :: (List.range (n - i - 1)).map fun k => i + 1 + k :=
    range_split_aux i (n - i - 1)

lemma mergePairs_split (t : ProcessedImageTile) {yy xx : ℕ}
    (hyy : yy < min t.height t.data.length)
    (hxx : xx < min t.width ((t.data.getD yy []).length)) :
    ∃ l1 l2, mergePairs t = l1 ++ (yy, xx) :: l2 ∧
      ∀ p ∈ l2, p.1 ≠ yy ∨ p.2 ≠ xx := by
  unfold mergePairs
  rw [range_split hyy, List.flatMap_append, List.flatMap_cons]
  rw [range_split hxx, List.map_append, List.map_cons]
  refine ⟨(List.range yy).flatMap (fun y =>
      (List.range (min t.width ((t.data.getD y []).length))).map fun x => (y, x)) ++
      (List.range xx).map (fun x => (yy, x)),
    ((List.range (min t.width ((t.data.getD yy []).length) - xx - 1)).map
        (fun k => xx + 1 + k)).map (fun x => (yy, x)) ++
      ((List.range (min t.height t.data.length - yy - 1)).map
        (fun k => yy + 1 + k)).flatMap fun y =>
          (List.range (min t.width ((t.data.getD y []).length))).map fun x => (y, x),
    ?_, ?_⟩
  · simp [List.append_assoc, List.cons_append]
  · intro p hp
    rw [List.mem_append] at hp
    rcases hp with hp | hp
    · rw [List.mem_map] at hp
      obtain ⟨k, hk, rfl⟩ := hp
      rw [List.mem_map] at hk
      obtain ⟨m, _, rfl⟩ := hk
      right
      simp only []
      omega
    · rw [List.mem_flatMap] at hp
      obtain ⟨y, hy, hp⟩ := hp
      rw [List.mem_map] at hy
      obtain ⟨k, _, rfl⟩ := hy
      rw [List.mem_map] at hp
      obtain ⟨x, _, rfl⟩ := hp
      left
      simp only []
      omega

lemma getPix_mergeTile_covered (buf : Grid) (t : ProcessedImageTile) {xx yy : ℕ}
    (hyy : yy < min t.height t.data.length)
    (hxx : xx < min t.width ((t.data.getD yy []).length))
    (hb : t.y + yy < buf.length) (ha : t.x + xx < (buf.getD (t.y + yy) []).length) :
    getPix (mergeTile buf t) (t.x + xx) (t.y + yy) =
      (t.data.getD yy []).getD xx rgba0 := by
  obtain ⟨l1, l2, hsplit, hl2⟩ := mergePairs_split t hyy hxx
  rw [mergeTile_eq_applyWrites]
  unfold mergeWrites
  rw [hsplit, List.map_append, List.map_cons]
  apply getPix_applyWrites_last
  · intro w hw
    rw [List.mem_map] at hw
    obtain ⟨p, hp, rfl⟩ := hw
    intro heq
    have hcx : t.x + p.2 = t.x + xx := congrArg Prod.fst heq
    have hcy : t.y + p.1 = t.y + yy := congrArg Prod.snd heq
    rcases hl2 p hp with h | h
    · exact h (by omega)
    · exact h (by omega)
  · exact hb
  · exact ha

lemma mergeTile_length (buf : Grid) (t : ProcessedImageTile) :
    (mergeTile buf t).length = buf.length := by
  rw [mergeTile_eq_applyWrites, applyWrites_length]

lemma mergeTile_rowlen (buf : Grid) (t : ProcessedImageTile) (j : ℕ) :
    ((mergeTile buf t).getD j []).length = (buf.getD j []).length := by
  rw [mergeTile_eq_applyWrites, applyWrites_rowlen]

lemma extract_zero_padding (pix : ℕ → ℕ → RGBA) (W H iid tid x y w h : ℕ)
    (hxw : x + w ≤ W) (hyh : y + h ≤ H) :
    (extractTileWithPadding pix W H iid tid x y w h 0).data =
      (List.range h).map fun yy => (List.range w).map fun xx =>
        pix (x + xx) (y + yy) := by
  unfold extractTileWithPadding
  simp only [Nat.add_zero, Nat.sub_zero]
  rw [min_eq_left hxw, min_eq_left hyh]
  have h1 : x + w - x = w := by omega
  have h2 : y + h - y = h := by omega
  rw [h1, h2]

lemma extractCenter_zero (f : ℕ → ℕ → RGBA) {w h : ℕ} (_hw : 0 < w) (hh : 0 < h) :
    ExtractCenter ((List.range h).map fun yy => (List.range w).map fun xx => f xx yy)
        0 w h =
      (List.range h).map fun yy => (List.range w).map fun xx => f xx yy := by
  unfold ExtractCenter
  simp only [List.length_map, List.length_range, Nat.add_zero]
  rw [headD_map_range _ _ hh]
  simp only [List.length_map, List.length_range]
  apply List.map_congr_left
  intro yy hyy
  apply List.map_congr_left
  intro xx hxx
  have hyy' : yy < h := List.mem_range.mp hyy
  have hxx' : xx < w := List.mem_range.mp hxx
  rw [if_neg (by omega), if_neg (by omega),
    getD_map_range _ _ hyy', getD_map_range _ _ hxx']

lemma processTile_exact (pix : ℕ → ℕ → RGBA) (W H iid tid x y w h : ℕ)
    (hxw : x + w ≤ W) (hyh : y + h ≤ H) (hw : 0 < w) (hh : 0 < h) :
    processTile [[(1 : ℚ)]] (extractTileWithPadding pix W H iid tid x y w h 0) =
      ⟨iid, tid, x, y, w, h, (List.range h).map fun yy =>
        (List.range w).map fun xx => pix (x + xx) (y + yy)⟩ := by
  show ProcessedImageTile.mk iid tid x y w h
      (ExtractCenter (ApplyBlurToTile
        (extractTileWithPadding pix W H iid tid x y w h 0).data [[(1 : ℚ)]]) 0 w h) = _
  rw [extract_zero_padding pix W H iid tid x y w h hxw hyh]
  rw [applyBlur_one (fun u v => pix (x + u) (y + v)) hw hh]
  rw [extractCenter_zero (fun u v => pix (x + u) (y + v)) hw hh]

lemma ceilDiv_eq_div_succ {n T : ℕ} (hT : 0 < T) (hn : 0 < n) :
    ceilDiv n T = (n - 1) / T + 1 := by
  unfold ceilDiv
  have h2 : n + T - 1 = (n - 1) + T := by omega
  rw [h2, Nat.add_div_right _ hT]

lemma splitTiles_mem_bounds {W H T : ℕ} (hT : 0 < T) {r : TileRect}
    (hr : r ∈ splitTiles W H T) :
    r.x + r.w ≤ W ∧ r.y + r.h ≤ H ∧ 0 < r.w ∧ 0 < r.h := by
  rw [splitTiles_eq_map_range hT, List.mem_map] at hr
  obtain ⟨i, hi, rfl⟩ := hr
  rw [List.mem_range] at hi
  have hcW : 0 < ceilDiv W T := by
    rcases Nat.eq_zero_or_pos (ceilDiv W T) with h | h
    · rw [h, Nat.mul_zero] at hi
      omega
    · exact h
  have hcH : 0 < ceilDiv H T := by
    rcases Nat.eq_zero_or_pos (ceilDiv H T) with h | h
    · rw [h, Nat.zero_mul] at hi
      omega
    · exact h
  have hW0 : 0 < W := by
    by_contra hW
    have : W = 0 := by omega
    subst this
    have : ceilDiv 0 T = 0 := by
      unfold ceilDiv
      exact Nat.div_eq_of_lt (by omega)
    omega
  have hH0 : 0 < H := by
    by_contra hH
    have : H = 0 := by omega
    subst this
    have : ceilDiv 0 T = 0 := by
      unfold ceilDiv
      exact Nat.div_eq_of_lt (by omega)
    omega
  have hxW : i % ceilDiv W T * T < W := by
    have h1 : i % ceilDiv W T ≤ (W - 1) / T := by
      have := Nat.mod_lt i hcW
      have h2 := ceilDiv_eq_div_succ hT hW0
      omega
    have h3 : i % ceilDiv W T * T ≤ (W - 1) / T * T := Nat.mul_le_mul_right _ h1
    have h4 : (W - 1) / T * T ≤ W - 1 := Nat.div_mul_le_self _ _
    omega
  have hyH : i / ceilDiv W T * T < H := by
    have h1 : i / ceilDiv W T < ceilDiv H T := by
      rcases Nat.lt_or_ge (i / ceilDiv W T) (ceilDiv H T) with h | h
      · exact h
      · exfalso
        have h2 : ceilDiv H T * ceilDiv W T ≤ i / ceilDiv W T * ceilDiv W T :=
          Nat.mul_le_mul_right _ h
        have h3 : i / ceilDiv W T * ceilDiv W T ≤ i := Nat.div_mul_le_self _ _
        omega
    have h2 : i / ceilDiv W T ≤ (H - 1) / T := by
      have h3 := ceilDiv_eq_div_succ hT hH0
      omega
    have h3 : i / ceilDiv W T * T ≤ (H - 1) / T * T := Nat.mul_le_mul_right _ h2
    have h4 : (H - 1) / T * T ≤ H - 1 := Nat.div_mul_le_self _ _
    omega
  refine ⟨?_, ?_, ?_, ?_⟩
  · simp only []
    have := min_le_right T (W - i % ceilDiv W T * T)
    omega
  · simp only []
    have := min_le_right T (H - i / ceilDiv W T * T)
    omega
  · simp only []
    omega
  · simp only []
    omega

lemma bufShape_newRGBA (W H : ℕ) : bufShape W H (newRGBA W H) := by
  constructor
  · simp [newRGBA]
  · intro j hj
    unfold newRGBA
    rw [getD_map_range _ _ hj]
    simp

lemma bufShape_mergeTile {W H : ℕ} {g : Grid} (t : ProcessedImageTile)
    (hs : bufShape W H g) : bufShape W H (mergeTile g t) := by
  refine ⟨?_, ?_⟩
  · rw [mergeTile_length]
    exact hs.1
  · intro j hj
    rw [mergeTile_rowlen]
    exact hs.2 j hj

lemma getPix_mergeTile_of_not_covered (buf : Grid) (u : ProcessedImageTile)
    {px py : ℕ}
    (hcov : ¬ (u.x ≤ px ∧ px < u.x + u.width ∧ u.y ≤ py ∧ py < u.y + u.height)) :
    getPix (mergeTile buf u) px py = getPix buf px py := by
  rw [mergeTile_eq_applyWrites]
  apply getPix_applyWrites_of_notMem
  intro w hw
  rw [mem_mergeWrites] at hw
  obtain ⟨yy, xx, h1, h2, rfl⟩ := hw
  intro heq
  have hx : u.x + xx = px := congrArg Prod.fst heq
  have hy : u.y + yy = py := congrArg Prod.snd heq
  have hxw : xx < u.width := lt_of_lt_of_le h2 (min_le_left _ _)
  have hyh : yy < u.height := lt_of_lt_of_le h1 (min_le_left _ _)
  exact hcov ⟨by omega, by omega, by omega, by omega⟩

lemma getPix_mergeTile_exact {W H : ℕ} (pix : ℕ → ℕ → RGBA) (buf : Grid)
    (u : ProcessedImageTile) {px py : ℕ}
    (hex : exactTile pix W H u) (hs : bufShape W H buf)
    (hpy : py < H)
    (hcov : u.x ≤ px ∧ px < u.x + u.width ∧ u.y ≤ py ∧ py < u.y + u.height) :
    getPix (mergeTile buf u) px py = pix px py := by
  obtain ⟨hxW, hyH, hdata⟩ := hex
  obtain ⟨hc1, hc2, hc3, hc4⟩ := hcov
  have hxx : px - u.x < u.width := by omega
  have hyy : py - u.y < u.height := by omega
  have hlen : u.data.length = u.height := by rw [hdata]; simp
  have hrow : (u.data.getD (py - u.y) []).length = u.width := by
    rw [hdata, getD_map_range _ _ hyy]
    simp
  have hpx' : px = u.x + (px - u.x) := by omega
  have hpy' : py = u.y + (py - u.y) := by omega
  rw [hpx', hpy']
  rw [getPix_mergeTile_covered buf u (by omega) (by rw [hrow]; omega)
    (by rw [hs.1]; omega) (by rw [hs.2 (u.y + (py - u.y)) (by omega)]; omega)]
  rw [hdata, getD_map_range _ _ hyy, getD_map_range _ _ hxx]

lemma assemble_fold (pix : ℕ → ℕ → RGBA) (W H px py : ℕ)
    (hpy : py < H) :
    ∀ (L : List ProcessedImageTile) (buf : Grid), bufShape W H buf →
      (∀ u ∈ L, exactTile pix W H u) →
      ((L.countP (fun u =>
          decide (coversPix ⟨u.x, u.y, u.width, u.height⟩ px py)) = 0 →
        getPix (L.foldl mergeTile buf) px py = getPix buf px py) ∧
       (L.countP (fun u =>
          decide (coversPix ⟨u.x, u.y, u.width, u.height⟩ px py)) = 1 →
        getPix (L.foldl mergeTile buf) px py = pix px py)) := by
  intro L
  induction L with
  | nil =>
    intro buf _ _
    exact ⟨fun _ => rfl, fun hcon => by simp [List.countP_nil] at hcon⟩
  | cons u L ih =>
    intro buf hs hex
    have hs' : bufShape W H (mergeTile buf u) := bufShape_mergeTile u hs
    have hex' : ∀ v ∈ L, exactTile pix W H v :=
      fun v hv => hex v (List.mem_cons_of_mem _ hv)
    have hfold : (u :: L).foldl mergeTile buf = L.foldl mergeTile (mergeTile buf u) := rfl
    by_cases hc : coversPix ⟨u.x, u.y, u.width, u.height⟩ px py
    · have hcount : (u :: L).countP (fun u =>
          decide (coversPix ⟨u.x, u.y, u.width, u.height⟩ px py)) =
          L.countP (fun u =>
            decide (coversPix ⟨u.x, u.y, u.width, u.height⟩ px py)) + 1 := by
        rw [List.countP_cons]
        simp [hc]
      constructor
      · intro h0
        omega
      · intro h1
        rw [hfold]
        have hrest : L.countP (fun u =>
            decide (coversPix ⟨u.x, u.y, u.width, u.height⟩ px py)) = 0 := by omega
        rw [(ih (mergeTile buf u) hs' hex').1 hrest]
        exact getPix_mergeTile_exact pix buf u
          (hex u (List.mem_cons_self _ _)) hs hpy hc
    · have hcount : (u :: L).countP (fun u =>
          decide (coversPix ⟨u.x, u.y, u.width, u.height⟩ px py)) =
          L.countP (fun u =>
            decide (coversPix ⟨u.x, u.y, u.width, u.height⟩ px py)) := by
        rw [List.countP_cons]
        simp [hc]
      have hunc : getPix (mergeTile buf u) px py = getPix buf px py :=
        getPix_mergeTile_of_not_covered buf u (by
          intro hcon
          exact hc ⟨hcon.1, hcon.2.1, hcon.2.2.1, hcon.2.2.2⟩)
      constructor
      · intro h0
        rw [hfold, (ih (mergeTile buf u) hs' hex').1 (by omega), hunc]
      · intro h1
        rw [hfold]
        exact (ih (mergeTile buf u) hs' hex').2 (by omega)

/-- C7: with the 1×1 kernel produced by `GenerateGaussianKernel(1)` (single
weight 1 once the float exponential and `math.Pi` are finite and nonzero;
padding `1/2 = 0`), splitting an image with the coordinator, blurring every
tile with the worker and reassembling the processed tiles by coordinate
reproduces the original image pixel-for-pixel. -/
theorem identity_kernel_roundtrip (expQ : ℚ → ℚ) (piQ : ℚ)
    (he : expQ 0 ≠ 0) (hp : piQ ≠ 0) (pix : ℕ → ℕ → RGBA) (W H iid px py : ℕ)
    (hx : px < W) (hy : py < H) :
    getPix (assembleTiles W H
      ((coordinatorTiles pix W H iid TILE_SIZE (1 / 2)).map
        (processTile (GenerateGaussianKernel expQ piQ 1)))) px py = pix px py := by
  rw [gaussianKernel_one expQ piQ he hp]
  have hT : 0 < TILE_SIZE := by norm_num [TILE_SIZE]
  unfold assembleTiles coordinatorTiles
  rw [List.map_map]
  have hmem : ∀ p ∈ (splitTiles W H TILE_SIZE).enum,
      p.2 ∈ splitTiles W H TILE_SIZE := by
    intro p hp2
    rw [List.mem_enum_iff_getElem?] at hp2
    exact (List.mem_iff_getElem?).mpr ⟨p.1, hp2⟩
  have hexact : ∀ u ∈ ((splitTiles W H TILE_SIZE).enum).map
      (processTile [[(1 : ℚ)]] ∘ fun p =>
        extractTileWithPadding pix W H iid p.1 p.2.x p.2.y p.2.w p.2.h (1 / 2)),
      exactTile pix W H u := by
    intro u hu
    rw [List.mem_map] at hu
    obtain ⟨p, hpmem, rfl⟩ := hu
    have hr := splitTiles_mem_bounds hT (hmem p hpmem)
    simp only [Function.comp_apply]
    rw [show (1 / 2 : ℕ) = 0 from rfl]
    rw [processTile_exact pix W H iid p.1 p.2.x p.2.y p.2.w p.2.h
      hr.1 hr.2.1 hr.2.2.1 hr.2.2.2]
    exact ⟨hr.1, hr.2.1, rfl⟩
  have hfun : ∀ p : ℕ × TileRect,
      ((fun u => decide (coversPix ⟨u.x, u.y, u.width, u.height⟩ px py)) ∘
        (processTile [[(1 : ℚ)]] ∘ fun p =>
          extractTileWithPadding pix W H iid p.1 p.2.x p.2.y p.2.w p.2.h (1 / 2))) p =
      (fun p : ℕ × TileRect => decide (coversPix p.2 px py)) p := by
    intro p
    rfl
  have hcount : (((splitTiles W H TILE_SIZE).enum).map
      (processTile [[(1 : ℚ)]] ∘ fun p =>
        extractTileWithPadding pix W H iid p.1 p.2.x p.2.y p.2.w p.2.h (1 / 2))).countP
      (fun u => decide (coversPix ⟨u.x, u.y, u.width, u.height⟩ px py)) = 1 := by
    rw [List.countP_map, funext hfun]
    have h2 : ((splitTiles W H TILE_SIZE).enum).countP
        (fun p : ℕ × TileRect => decide (coversPix p.2 px py)) =
        (((splitTiles W H TILE_SIZE).enum).map Prod.snd).countP
        (fun t => decide (coversPix t px py)) := by
      rw [List.countP_map]
      rfl
    rw [h2, List.enum_map_snd]
    exact splitTiles_countP_one hT hx hy
  exact (assemble_fold pix W H px py hy _ (newRGBA W H)
    (bufShape_newRGBA W H) hexact).2 hcount

/-- Witness for C7 on a 1×1 image with `expQ = const 1`, `piQ = 3`. -/
theorem identity_kernel_roundtrip_witness :
    ((fun _ : ℚ => (1 : ℚ)) 0 ≠ 0) ∧ ((3 : ℚ) ≠ 0) ∧
    getPix (assembleTiles 1 1 ((coordinatorTiles img2 1 1 0 TILE_SIZE (1 / 2)).map
      (processTile (GenerateGaussianKernel (fun _ => (1 : ℚ)) 3 1)))) 0 0 = img2 0 0 :=
  ⟨by norm_num, by norm_num,
    identity_kernel_roundtrip (fun _ => (1 : ℚ)) 3 (by norm_num) (by norm_num)
      img2 1 1 0 0 0 (by norm_num) (by norm_num)⟩

/-- C8, evaluated at the failing input: `AddJob`/`AddResult` return a `nil`
error in both the reachable and the unreachable-store case — a failed `XADD`
(store unavailable, `storeOk = false`) is reported as success, because the
command error is discarded by `.Val()`.  The claim requires an error exactly
when the store is unavailable. -/
theorem publish_error_swallowed (job : JobMessage) (res : ResultMessage) :
    (AddJob false job).2 = none ∧ (AddJob true job).2 = none ∧
    (AddResult false res).2 = none ∧ (AddResult true res).2 = none :=
  ⟨rfl, rfl, rfl, rfl⟩

/-- C4, evaluated at the failing input: a valid tile job processed while the
store is unreachable (`storeOk = false`, so the `XADD` behind `AddResult`
fails).  The publish attempt does precede the ack, but because `AddResult`
swallows the error the job is acknowledged in the same iteration anyway —
contradicting "if the publish fails, the job is never acknowledged". -/
theorem worker_acks_despite_failed_publish (kernel : List (List ℚ))
    (id : String) (tile : ImageTile) :
    workerIteration kernel false (some (id, some ⟨"tile", some tile⟩)) =
      ([.claimStale, .publishResult false, .ackJob id],
        some (processTile kernel tile)) := rfl

/-- C9, counterexample: a message whose payload does not decode is logged
and skipped but NOT acknowledged (`ReadJob` returns `("", nil, err)` and the
worker just logs and continues), so it stays pending — the claim says every
malformed message is acknowledged. -/
theorem malformed_undecodable_not_acked :
    workerIteration [[(1 : ℚ)]] true (some ("m-1", none)) =
      ([.claimStale, .logReadError], none) ∧
    WEvent.ackJob "m-1" ∉
      (workerIteration [[(1 : ℚ)]] true (some ("m-1", none))).1 := by
  refine ⟨rfl, ?_⟩
  decide

/-- C9, amended: a decoded message with the wrong type or a missing payload
is logged, acknowledged and skipped (never redelivered, never silently
dropped); a message whose payload fails to decode is logged and skipped
WITHOUT acknowledgment and remains pending. -/
theorem malformed_message_handling (kernel : List (List ℚ)) (storeOk : Bool)
    (id : String) (jm : JobMessage)
    (hmal : jm.jobType ≠ "tile" ∨ jm.imageTile = none) :
    workerIteration kernel storeOk (some (id, some jm)) =
      ([.claimStale, .logInvalidJob, .ackJob id], none) ∧
    workerIteration kernel storeOk (some (id, none)) =
      ([.claimStale, .logReadError], none) ∧
    WEvent.ackJob id ∉ (workerIteration kernel storeOk (some (id, none))).1 := by
  refine ⟨?_, rfl, by simp [workerIteration, ReadJob]⟩
  obtain ⟨jt, it⟩ := jm
  rcases it with _ | tile
  · rfl
  · rcases hmal with hmal | hmal
    · simp only [] at hmal
      simp [workerIteration, ReadJob, hmal]
    · exact absurd hmal (by simp)

/-- Witness for C9's amended theorem: a job of type `"resize"`. -/
theorem malformed_message_handling_witness :
    ((⟨"resize", none⟩ : JobMessage).jobType ≠ "tile" ∨
      (⟨"resize", none⟩ : JobMessage).imageTile = none) ∧
    (workerIteration [[(1 : ℚ)]] true (some ("m-2", some ⟨"resize", none⟩)) =
      ([.claimStale, .logInvalidJob, .ackJob "m-2"], none) ∧
    workerIteration [[(1 : ℚ)]] true (some ("m-2", none)) =
      ([.claimStale, .logReadError], none) ∧
    WEvent.ackJob "m-2" ∉
      (workerIteration [[(1 : ℚ)]] true (some ("m-2", none))).1) :=
  ⟨Or.inr rfl,
    malformed_message_handling [[(1 : ℚ)]] true "m-2" ⟨"resize", none⟩ (Or.inr rfl)⟩

lemma upd_self {α : Type} (f : ℕ → α) (k : ℕ) (v : α) : upd f k v k = v := by
  simp [upd]

lemma upd_ne {α : Type} (f : ℕ → α) (k : ℕ) (v : α) {i : ℕ} (h : i ≠ k) :
    upd f k v i = f i := by
  simp [upd, h]

lemma asmInv_init (info : ℕ → Option ImageInfo) (hpos : InfoPos info) :
    AsmInv info initAsmState := by
  intro img inf hinf
  refine ⟨by simp [initAsmState], ?_, fun _ => Or.inl rfl, fun e he => by
    simp [initAsmState] at he⟩
  simp only [initAsmState]
  have := hpos img inf hinf
  simp
  omega

lemma asmInv_apply (info : ℕ → Option ImageInfo) {s : AsmState}
    {asm : ImageAssembler} {tile : ProcessedImageTile}
    (hs : AsmInv info s)
    (hinfo : info tile.imageID = some asm.info)
    (htid : tile.tileID < asm.info.expectedTiles) :
    AsmInv info (assemblerApply s asm tile) := by
  intro img inf hinf
  unfold assemblerApply
  by_cases hdup : tile.tileID ∈ s.received tile.imageID
  · rw [if_pos hdup]
    exact hs img inf hinf
  rw [if_neg hdup]
  by_cases himg : img = tile.imageID
  · subst himg
    have hIa : inf = asm.info := by
      rw [hinfo] at hinf
      exact (Option.some.inj hinf).symm
    subst hIa
    obtain ⟨h1, h2, h3, h4⟩ := hs tile.imageID asm.info hinf
    have hcard : (insert tile.tileID (s.received tile.imageID)).card =
        (s.received tile.imageID).card + 1 := Finset.card_insert_of_not_mem hdup
    have hsub : insert tile.tileID (s.received tile.imageID) ⊆
        Finset.range asm.info.expectedTiles := by
      rw [Finset.insert_subset_iff]
      exact ⟨Finset.mem_range.mpr htid, h1⟩
    have hcardle : (insert tile.tileID (s.received tile.imageID)).card ≤
        asm.info.expectedTiles := by
      have := Finset.card_le_card hsub
      rwa [Finset.card_range] at this
    by_cases hsave : asm.info.expectedTiles ≤
        (insert tile.tileID (s.received tile.imageID)).card
    · rw [if_pos hsave]
      refine ⟨?_, ?_, ?_, ?_⟩
      · simp only [upd, eq_self_iff_true, if_true]
        exact hsub
      · simp only [upd, eq_self_iff_true, if_true, Option.isSome_some, true_iff]
        exact le_antisymm hcardle hsave
      · intro _
        right
        simp only [upd, eq_self_iff_true, if_true]
        exact le_antisymm hcardle hsave
      · intro e he
        simp only [upd, eq_self_iff_true, if_true] at he
        exact Option.noConfusion he
    · rw [if_neg hsave]
      have hout : s.outputs tile.imageID = none := by
        rcases h : s.outputs tile.imageID with _ | g
        · rfl
        · exfalso
          have := h2.mp (by rw [h]; rfl)
          omega
      refine ⟨?_, ?_, ?_, ?_⟩
      · simp only [upd, eq_self_iff_true, if_true]
        exact hsub
      · simp only [upd, eq_self_iff_true, if_true]
        rw [hout]
        simp only [Option.isSome_none, Bool.false_eq_true, false_iff]
        omega
      · intro hnone
        simp only [upd, eq_self_iff_true, if_true] at hnone
        exact Option.noConfusion hnone
      · intro e he
        simp only [upd, eq_self_iff_true, if_true, Option.some.injEq] at he
        rw [← he]
  · obtain ⟨h1, h2, h3, h4⟩ := hs img inf hinf
    by_cases hsave : asm.info.expectedTiles ≤
        (insert tile.tileID (s.received tile.imageID)).card
    · rw [if_pos hsave]
      refine ⟨?_, ?_, ?_, ?_⟩
      · simp only [upd, if_neg himg]
        exact h1
      · simp only [upd, if_neg himg]
        exact h2
      · intro hnone
        simp only [upd, if_neg himg] at hnone ⊢
        exact h3 hnone
      · intro e he
        simp only [upd, if_neg himg] at he
        exact h4 e he
    · rw [if_neg hsave]
      refine ⟨?_, ?_, ?_, ?_⟩
      · simp only [upd, if_neg himg]
        exact h1
      · simp only [upd, if_neg himg]
        exact h2
      · intro hnone
        simp only [upd, if_neg himg] at hnone ⊢
        exact h3 hnone
      · intro e he
        simp only [upd, if_neg himg] at he
        exact h4 e he

lemma asmInv_step (info : ℕ → Option ImageInfo) {s : AsmState}
    (hs : AsmInv info s) {d : Option ProcessedImageTile}
    (hd : ValidDelivery info d) : AsmInv info (assemblerStep info s d) := by
  rcases d with _ | tile
  · exact hs
  obtain ⟨inf0, hinf0, htid⟩ := hd tile rfl
  show AsmInv info
    (match s.assemblers tile.imageID with
    | some asm => assemblerApply s asm tile
    | none =>
      match info tile.imageID with
      | none => s
      | some inf =>
        assemblerApply
          ⟨upd s.assemblers tile.imageID (some ⟨inf, newRGBA inf.width inf.height⟩),
           s.received, s.outputs⟩
          ⟨inf, newRGBA inf.width inf.height⟩ tile)
  rcases hasm : s.assemblers tile.imageID with _ | asm
  · rw [hinf0]
    show AsmInv info (assemblerApply
      ⟨upd s.assemblers tile.imageID (some ⟨inf0, newRGBA inf0.width inf0.height⟩),
       s.received, s.outputs⟩
      ⟨inf0, newRGBA inf0.width inf0.height⟩ tile)
    have hs' : AsmInv info
        ⟨upd s.assemblers tile.imageID (some ⟨inf0, newRGBA inf0.width inf0.height⟩),
         s.received, s.outputs⟩ := by
      intro img inf hinf
      obtain ⟨h1, h2, h3, h4⟩ := hs img inf hinf
      by_cases himg : img = tile.imageID
      · subst himg
        have hIa : inf = inf0 := by
          rw [hinf0] at hinf
          exact (Option.some.inj hinf).symm
        subst hIa
        refine ⟨h1, h2, ?_, ?_⟩
        · intro hnone
          simp only [upd, eq_self_iff_true, if_true] at hnone
          exact Option.noConfusion hnone
        · intro e he
          simp only [upd, eq_self_iff_true, if_true, Option.some.injEq] at he
          rw [← he]
      · refine ⟨h1, h2, ?_, ?_⟩
        · intro hnone
          simp only [upd, if_neg himg] at hnone
          exact h3 hnone
        · intro e he
          simp only [upd, if_neg himg] at he
          exact h4 e he
    exact asmInv_apply info hs' hinf0 htid
  · have hai : asm.info = inf0 := (hs tile.imageID inf0 hinf0).2.2.2 asm hasm
    show AsmInv info (assemblerApply s asm tile)
    exact asmInv_apply info hs (by rw [hai]; exact hinf0) (by rw [hai]; exact htid)

lemma asmInv_fold (info : ℕ → Option ImageInfo) :
    ∀ (l : List (Option ProcessedImageTile)) (s : AsmState), AsmInv info s →
      (∀ m ∈ l, ValidDelivery info m) →
      AsmInv info (l.foldl (assemblerStep info) s) := by
  intro l
  induction l with
  | nil => exact fun s hs _ => hs
  | cons d l ih =>
    intro s hs hv
    exact ih _ (asmInv_step info hs (hv d (List.mem_cons_self _ _)))
      (fun m hm => hv m (List.mem_cons_of_mem _ hm))

lemma asmInv_run (info : ℕ → Option ImageInfo) (hpos : InfoPos info)
    (msgs : List (Option ProcessedImageTile))
    (hval : ∀ m ∈ msgs, ValidDelivery info m) :
    AsmInv info (assemblerRun info msgs) :=
  asmInv_fold info msgs initAsmState (asmInv_init info hpos) hval

/-- C1: at every point of a run on deliveries the system can actually
produce (results of published jobs: metadata stored, `TileID < ExpectedTiles`,
`ExpectedTiles > 0`), an image's output file has been written if and only if
all `ExpectedTiles` distinct TileIDs have been received at least once
(received-set cardinality equals `ExpectedTiles`); it is never written while
only a strict subset has been received. -/
theorem assembler_saves_iff_all_received (info : ℕ → Option ImageInfo)
    (msgs : List (Option ProcessedImageTile))
    (hval : ∀ m ∈ msgs, ValidDelivery info m) (hpos : InfoPos info)
    (n img : ℕ) (inf : ImageInfo) (hinf : info img = some inf) :
    ((assemblerRun info (msgs.take n)).outputs img).isSome ↔
      ((assemblerRun info (msgs.take n)).received img).card = inf.expectedTiles :=
  ((asmInv_run info hpos (msgs.take n)
    (fun m hm => hval m (List.take_subset n msgs hm))) img inf hinf).2.1

lemma info1_valid : ∀ m ∈ [some tile1], ValidDelivery info1 m := by
  intro m hm
  rw [List.mem_singleton] at hm
  subst hm
  intro t ht
  obtain rfl := Option.some.inj ht
  exact ⟨⟨0, 1, 1, 1⟩, rfl, by decide⟩

lemma info1_pos : InfoPos info1 := by
  intro i inf h
  by_cases hi : i = 0
  · subst hi
    simp only [info1, eq_self_iff_true, if_true, Option.some.injEq] at h
    rw [← h]
    decide
  · simp only [info1, if_neg hi] at h
    exact Option.noConfusion h

/-- Witness for C1: after delivering the single expected tile, the output
for image 0 exists iff its received count is 1 (here: both sides hold). -/
theorem assembler_saves_iff_all_received_witness :
    (∀ m ∈ [some tile1], ValidDelivery info1 m) ∧ InfoPos info1 ∧
    info1 0 = some ⟨0, 1, 1, 1⟩ ∧
    (((assemblerRun info1 ([some tile1].take 1)).outputs 0).isSome ↔
      ((assemblerRun info1 ([some tile1].take 1)).received 0).card =
        (⟨0, 1, 1, 1⟩ : ImageInfo).expectedTiles) :=
  ⟨info1_valid, info1_pos, rfl,
    assembler_saves_iff_all_received info1 [some tile1] info1_valid info1_pos
      1 0 ⟨0, 1, 1, 1⟩ rfl⟩

lemma apply_received (s : AsmState) (asm : ImageAssembler) (tile : ProcessedImageTile) :
    (assemblerApply s asm tile).received =
      if tile.tileID ∈ s.received tile.imageID then s.received
      else upd s.received tile.imageID (insert tile.tileID (s.received tile.imageID)) := by
  unfold assemblerApply
  by_cases h : tile.tileID ∈ s.received tile.imageID
  · rw [if_pos h, if_pos h]
  · rw [if_neg h, if_neg h]
    by_cases h2 : asm.info.expectedTiles ≤
        (insert tile.tileID (s.received tile.imageID)).card
    · rw [if_pos h2]
    · rw [if_neg h2]

lemma apply_outputs (s : AsmState) (asm : ImageAssembler) (tile : ProcessedImageTile) :
    (assemblerApply s asm tile).outputs =
      if tile.tileID ∈ s.received tile.imageID then s.outputs
      else if asm.info.expectedTiles ≤
          (insert tile.tileID (s.received tile.imageID)).card then
        upd s.outputs tile.imageID (some (mergeTile asm.img tile))
      else s.outputs := by
  unfold assemblerApply
  by_cases h : tile.tileID ∈ s.received tile.imageID
  · rw [if_pos h, if_pos h]
  · rw [if_neg h, if_neg h]
    by_cases h2 : asm.info.expectedTiles ≤
        (insert tile.tileID (s.received tile.imageID)).card
    · rw [if_pos h2, if_pos h2]
    · rw [if_neg h2, if_neg h2]

lemma apply_assemblers (s : AsmState) (asm : ImageAssembler) (tile : ProcessedImageTile) :
    (assemblerApply s asm tile).assemblers =
      if tile.tileID ∈ s.received tile.imageID then s.assemblers
      else if asm.info.expectedTiles ≤
          (insert tile.tileID (s.received tile.imageID)).card then
        upd s.assemblers tile.imageID none
      else upd s.assemblers tile.imageID (some ⟨asm.info, mergeTile asm.img tile⟩) := by
  unfold assemblerApply
  by_cases h : tile.tileID ∈ s.received tile.imageID
  · rw [if_pos h, if_pos h]
  · rw [if_neg h, if_neg h]
    by_cases h2 : asm.info.expectedTiles ≤
        (insert tile.tileID (s.received tile.imageID)).card
    · rw [if_pos h2, if_pos h2]
    · rw [if_neg h2, if_neg h2]

/-- After processing a (valid) result, the delivered tile id is in the
per-image received set. -/
lemma step_mem_received (info : ℕ → Option ImageInfo) (s : AsmState)
    {tile : ProcessedImageTile} (hd : ValidDelivery info (some tile)) :
    tile.tileID ∈ (assemblerStep info s (some tile)).received tile.imageID := by
  obtain ⟨inf0, hinf0, _⟩ := hd tile rfl
  show tile.tileID ∈
    (match s.assemblers tile.imageID with
    | some asm => assemblerApply s asm tile
    | none =>
      match info tile.imageID with
      | none => s
      | some inf =>
        assemblerApply
          ⟨upd s.assemblers tile.imageID (some ⟨inf, newRGBA inf.width inf.height⟩),
           s.received, s.outputs⟩
          ⟨inf, newRGBA inf.width inf.height⟩ tile).received tile.imageID
  rcases s.assemblers tile.imageID with _ | asm
  · rw [hinf0]
    show tile.tileID ∈ (assemblerApply
      ⟨upd s.assemblers tile.imageID (some ⟨inf0, newRGBA inf0.width inf0.height⟩),
       s.received, s.outputs⟩
      ⟨inf0, newRGBA inf0.width inf0.height⟩ tile).received tile.imageID
    rw [apply_received]
    by_cases h : tile.tileID ∈ s.received tile.imageID
    · rw [if_pos h]
      exact h
    · rw [if_neg h]
      show tile.tileID ∈ upd s.received tile.imageID _ tile.imageID
      rw [upd_self]
      exact Finset.mem_insert_self _ _
  · show tile.tileID ∈ (assemblerApply s asm tile).received tile.imageID
    rw [apply_received]
    by_cases h : tile.tileID ∈ s.received tile.imageID
    · rw [if_pos h]
      exact h
    · rw [if_neg h, upd_self]
      exact Finset.mem_insert_self _ _

lemma outAgree_apply (info : ℕ → Option ImageInfo) {s t : AsmState}
    (asm : ImageAssembler) (tile : ProcessedImageTile)
    (hrec : s.received = t.received) (hout : s.outputs = t.outputs)
    (hasm : ∀ img2, s.assemblers img2 = t.assemblers img2 ∨
      (∃ inf, info img2 = some inf ∧ inf.expectedTiles ≤ (s.received img2).card)) :
    OutAgree info (assemblerApply s asm tile) (assemblerApply t asm tile) := by
  refine ⟨?_, ?_, ?_⟩
  · rw [apply_received, apply_received, hrec]
  · rw [apply_outputs, apply_outputs, hrec, hout]
  · intro img2
    rw [apply_assemblers, apply_assemblers, apply_received, hrec]
    by_cases hdup : tile.tileID ∈ t.received tile.imageID
    · rw [if_pos hdup, if_pos hdup, if_pos hdup]
      rcases hasm img2 with h | ⟨inf, hinf, hc⟩
      · exact Or.inl h
      · exact Or.inr ⟨inf, hinf, by rwa [hrec] at hc⟩
    · rw [if_neg hdup, if_neg hdup, if_neg hdup]
      by_cases hsave : asm.info.expectedTiles ≤
          (insert tile.tileID (t.received tile.imageID)).card
      · rw [if_pos hsave, if_pos hsave]
        by_cases h2 : img2 = tile.imageID
        · subst h2
          rw [upd_self, upd_self]
          exact Or.inl rfl
        · rw [upd_ne _ _ _ h2, upd_ne _ _ _ h2, upd_ne _ _ _ h2]
          rcases hasm img2 with h | ⟨inf, hinf, hc⟩
          · exact Or.inl h
          · exact Or.inr ⟨inf, hinf, by rwa [hrec] at hc⟩
      · rw [if_neg hsave, if_neg hsave]
        by_cases h2 : img2 = tile.imageID
        · subst h2
          rw [upd_self, upd_self]
          exact Or.inl rfl
        · rw [upd_ne _ _ _ h2, upd_ne _ _ _ h2, upd_ne _ _ _ h2]
          rcases hasm img2 with h | ⟨inf, hinf, hc⟩
          · exact Or.inl h
          · exact Or.inr ⟨inf, hinf, by rwa [hrec] at hc⟩

lemma step_dup (info : ℕ → Option ImageInfo) (s : AsmState)
    (tile : ProcessedImageTile)
    (hdup : tile.tileID ∈ s.received tile.imageID) :
    (assemblerStep info s (some tile)).received = s.received ∧
    (assemblerStep info s (some tile)).outputs = s.outputs ∧
    ∀ img2, img2 ≠ tile.imageID →
      (assemblerStep info s (some tile)).assemblers img2 = s.assemblers img2 := by
  have hstep : assemblerStep info s (some tile) =
      (match s.assemblers tile.imageID with
      | some asm => assemblerApply s asm tile
      | none =>
        match info tile.imageID with
        | none => s
        | some inf =>
          assemblerApply
            ⟨upd s.assemblers tile.imageID (some ⟨inf, newRGBA inf.width inf.height⟩),
             s.received, s.outputs⟩
            ⟨inf, newRGBA inf.width inf.height⟩ tile) := rfl
  rw [hstep]
  rcases s.assemblers tile.imageID with _ | asm
  · rcases info tile.imageID with _ | inf
    · exact ⟨rfl, rfl, fun _ _ => rfl⟩
    · refine ⟨?_, ?_, ?_⟩
      · rw [apply_received]
        exact if_pos hdup
      · rw [apply_outputs]
        exact if_pos hdup
      · intro img2 h2
        rw [apply_assemblers, if_pos hdup]
        show upd s.assemblers tile.imageID _ img2 = _
        rw [upd_ne _ _ _ h2]
  · refine ⟨?_, ?_, ?_⟩
    · rw [apply_received]
      exact if_pos hdup
    · rw [apply_outputs]
      exact if_pos hdup
    · intro img2 _
      rw [apply_assemblers, if_pos hdup]

/-- A duplicate delivered to an image whose in-memory entry is live changes
nothing at all. -/
lemma step_dup_entry (info : ℕ → Option ImageInfo) (s : AsmState)
    (tile : ProcessedImageTile) (asm : ImageAssembler)
    (hdup : tile.tileID ∈ s.received tile.imageID)
    (hentry : s.assemblers tile.imageID = some asm) :
    (assemblerStep info s (some tile)).assemblers = s.assemblers := by
  have hstep : assemblerStep info s (some tile) =
      (match s.assemblers tile.imageID with
      | some asm => assemblerApply s asm tile
      | none =>
        match info tile.imageID with
        | none => s
        | some inf =>
          assemblerApply
            ⟨upd s.assemblers tile.imageID (some ⟨inf, newRGBA inf.width inf.height⟩),
             s.received, s.outputs⟩
            ⟨inf, newRGBA inf.width inf.height⟩ tile) := rfl
  rw [hstep, hentry]
  show (assemblerApply s asm tile).assemblers = s.assemblers
  rw [apply_assemblers, if_pos hdup]

lemma outAgree_step (info : ℕ → Option ImageInfo) {s t : AsmState}
    (hs : AsmInv info s) (_ht : AsmInv info t)
    {d : Option ProcessedImageTile} (hd : ValidDelivery info d)
    (hR : OutAgree info s t) :
    OutAgree info (assemblerStep info s d) (assemblerStep info t d) := by
  obtain ⟨hrec, hout, hasm⟩ := hR
  rcases d with _ | tile
  · exact ⟨hrec, hout, hasm⟩
  obtain ⟨inf0, hinf0, htid⟩ := hd tile rfl
  rcases hasm tile.imageID with heq | ⟨inf1, hinf1, hcard⟩
  · have hstepS : assemblerStep info s (some tile) =
        (match s.assemblers tile.imageID with
        | some asm => assemblerApply s asm tile
        | none =>
          match info tile.imageID with
          | none => s
          | some inf =>
            assemblerApply
              ⟨upd s.assemblers tile.imageID (some ⟨inf, newRGBA inf.width inf.height⟩),
               s.received, s.outputs⟩
              ⟨inf, newRGBA inf.width inf.height⟩ tile) := rfl
    have hstepT : assemblerStep info t (some tile) =
        (match t.assemblers tile.imageID with
        | some asm => assemblerApply t asm tile
        | none =>
          match info tile.imageID with
          | none => t
          | some inf =>
            assemblerApply
              ⟨upd t.assemblers tile.imageID (some ⟨inf, newRGBA inf.width inf.height⟩),
               t.received, t.outputs⟩
              ⟨inf, newRGBA inf.width inf.height⟩ tile) := rfl
    rw [hstepS, hstepT, ← heq]
    rcases s.assemblers tile.imageID with _ | asm
    · rw [hinf0]
      show OutAgree info
        (assemblerApply
          ⟨upd s.assemblers tile.imageID (some ⟨inf0, newRGBA inf0.width inf0.height⟩),
           s.received, s.outputs⟩
          ⟨inf0, newRGBA inf0.width inf0.height⟩ tile)
        (assemblerApply
          ⟨upd t.assemblers tile.imageID (some ⟨inf0, newRGBA inf0.width inf0.height⟩),
           t.received, t.outputs⟩
          ⟨inf0, newRGBA inf0.width inf0.height⟩ tile)
      refine outAgree_apply
        (s := ⟨upd s.assemblers tile.imageID
          (some ⟨inf0, newRGBA inf0.width inf0.height⟩), s.received, s.outputs⟩)
        (t := ⟨upd t.assemblers tile.imageID
          (some ⟨inf0, newRGBA inf0.width inf0.height⟩), t.received, t.outputs⟩)
        info ⟨inf0, newRGBA inf0.width inf0.height⟩ tile hrec hout ?_
      intro img2
      by_cases h2 : img2 = tile.imageID
      · subst h2
        left
        show upd s.assemblers tile.imageID _ tile.imageID =
          upd t.assemblers tile.imageID _ tile.imageID
        rw [upd_self, upd_self]
      · rcases hasm img2 with h | ⟨inf, hinf, hc⟩
        · left
          show upd s.assemblers tile.imageID _ img2 = upd t.assemblers tile.imageID _ img2
          rw [upd_ne _ _ _ h2, upd_ne _ _ _ h2]
          exact h
        · exact Or.inr ⟨inf, hinf, hc⟩
    · exact outAgree_apply info asm tile hrec hout hasm
  · have hIe : inf1 = inf0 := by
      rw [hinf1] at hinf0
      exact Option.some.inj hinf0
    subst hIe
    have hfull : s.received tile.imageID = Finset.range inf1.expectedTiles := by
      have hsub := (hs tile.imageID inf1 hinf1).1
      refine Finset.eq_of_subset_of_card_le hsub ?_
      rwa [Finset.card_range]
    have hdupS : tile.tileID ∈ s.received tile.imageID := by
      rw [hfull]
      exact Finset.mem_range.mpr htid
    have hdupT : tile.tileID ∈ t.received tile.imageID := by
      rw [← hrec]
      exact hdupS
    obtain ⟨hr1, ho1, ha1⟩ := step_dup info s tile hdupS
    obtain ⟨hr2, ho2, ha2⟩ := step_dup info t tile hdupT
    refine ⟨?_, ?_, ?_⟩
    · rw [hr1, hr2, hrec]
    · rw [ho1, ho2, hout]
    · intro img2
      by_cases h2 : img2 = tile.imageID
      · subst h2
        right
        refine ⟨inf1, hinf1, ?_⟩
        rw [hr1]
        exact hcard
      · rw [ha1 img2 h2, ha2 img2 h2]
        rcases hasm img2 with h | ⟨inf, hinf, hc⟩
        · exact Or.inl h
        · refine Or.inr ⟨inf, hinf, ?_⟩
          rw [hr1]
          exact hc

lemma outAgree_fold (info : ℕ → Option ImageInfo) :
    ∀ (l : List (Option ProcessedImageTile)) (s t : AsmState),
      AsmInv info s → AsmInv info t → (∀ m ∈ l, ValidDelivery info m) →
      OutAgree info s t →
      OutAgree info (l.foldl (assemblerStep info) s)
        (l.foldl (assemblerStep info) t) := by
  intro l
  induction l with
  | nil => exact fun s t _ _ _ hR => hR
  | cons d l ih =>
    intro s t hs ht hv hR
    exact ih _ _ (asmInv_step info hs (hv d (List.mem_cons_self _ _)))
      (asmInv_step info ht (hv d (List.mem_cons_self _ _)))
      (fun m hm => hv m (List.mem_cons_of_mem _ hm))
      (outAgree_step info hs ht (hv d (List.mem_cons_self _ _)) hR)

/-- Processing the same delivery a second time relates the resulting state
to the once-processed state by `OutAgree`. -/
lemma outAgree_redeliver (info : ℕ → Option ImageInfo) {s1 : AsmState}
    {d : Option ProcessedImageTile}
    (hInv2 : AsmInv info (assemblerStep info s1 d))
    (hvd : ValidDelivery info d) :
    OutAgree info (assemblerStep info (assemblerStep info s1 d) d)
      (assemblerStep info s1 d) := by
  rcases d with _ | tile
  · exact ⟨rfl, rfl, fun _ => Or.inl rfl⟩
  have hdup : tile.tileID ∈
      (assemblerStep info s1 (some tile)).received tile.imageID :=
    step_mem_received info s1 hvd
  obtain ⟨hr, ho, ha⟩ := step_dup info (assemblerStep info s1 (some tile)) tile hdup
  refine ⟨hr, ho, ?_⟩
  intro img2
  by_cases h2 : img2 = tile.imageID
  · subst h2
    rcases hentry : (assemblerStep info s1 (some tile)).assemblers tile.imageID
      with _ | asm
    · obtain ⟨inf0, hinf0, htid⟩ := hvd tile rfl
      rcases (hInv2 tile.imageID inf0 hinf0).2.2.1 hentry with hempty | hfullc
      · exfalso
        rw [hempty] at hdup
        exact absurd hdup (Finset.not_mem_empty _)
      · refine Or.inr ⟨inf0, hinf0, ?_⟩
        rw [hr]
        omega
    · left
      rw [step_dup_entry info (assemblerStep info s1 (some tile)) tile asm hdup
        hentry]
      exact hentry
  · rw [ha img2 h2]
    exact Or.inl rfl

/-- C3: delivering the same `ProcessedTile` twice yields the same saved
outputs as delivering it once — the second delivery finds the `TileID`
already in the per-image received set and is discarded without reapplying —
and at no point does any image's received count exceed `ExpectedTileCount`. -/
theorem duplicate_delivery_idempotent (info : ℕ → Option ImageInfo)
    (l1 l2 : List (Option ProcessedImageTile)) (d : Option ProcessedImageTile)
    (hval : ∀ m ∈ l1 ++ d :: d :: l2, ValidDelivery info m)
    (hpos : InfoPos info) :
    (∀ img, (assemblerRun info (l1 ++ d :: d :: l2)).outputs img =
      (assemblerRun info (l1 ++ d :: l2)).outputs img) ∧
    (∀ n img inf, info img = some inf →
      ((assemblerRun info ((l1 ++ d :: d :: l2).take n)).received img).card ≤
        inf.expectedTiles) := by
  have hv1 : ∀ m ∈ l1, ValidDelivery info m :=
    fun m hm => hval m (List.mem_append_left _ hm)
  have hvd : ValidDelivery info d := hval d (by simp)
  have hv2 : ∀ m ∈ l2, ValidDelivery info m :=
    fun m hm => hval m (by simp [hm])
  constructor
  · have hInv1 : AsmInv info (l1.foldl (assemblerStep info) initAsmState) :=
      asmInv_fold info l1 _ (asmInv_init info hpos) hv1
    have hInv2 : AsmInv info (assemblerStep info
        (l1.foldl (assemblerStep info) initAsmState) d) :=
      asmInv_step info hInv1 hvd
    have hInv3 : AsmInv info (assemblerStep info (assemblerStep info
        (l1.foldl (assemblerStep info) initAsmState) d) d) :=
      asmInv_step info hInv2 hvd
    have hRbase := outAgree_redeliver info hInv2 hvd
    have hfinal := outAgree_fold info l2 _ _ hInv3 hInv2 hv2 hRbase
    intro img
    have hL : assemblerRun info (l1 ++ d :: d :: l2) =
        l2.foldl (assemblerStep info) (assemblerStep info (assemblerStep info
          (l1.foldl (assemblerStep info) initAsmState) d) d) := by
      unfold assemblerRun
      rw [List.foldl_append]
      rfl
    have hRt : assemblerRun info (l1 ++ d :: l2) =
        l2.foldl (assemblerStep info) (assemblerStep info
          (l1.foldl (assemblerStep info) initAsmState) d) := by
      unfold assemblerRun
      rw [List.foldl_append]
      rfl
    rw [hL, hRt]
    exact congrFun hfinal.2.1 img
  · intro n img inf hinf
    have h := asmInv_run info hpos ((l1 ++ d :: d :: l2).take n)
      (fun m hm => hval m (List.take_subset _ _ hm))
    have hsub := (h img inf hinf).1
    have hc := Finset.card_le_card hsub
    rwa [Finset.card_range] at hc

lemma info1_valid2 : ∀ m ∈ ([] ++ some tile1 :: some tile1 :: []),
    ValidDelivery info1 m := by
  intro m hm
  simp only [List.nil_append, List.mem_cons, List.not_mem_nil, or_false] at hm
  rcases hm with hm | hm
  all_goals
    subst hm
    intro t ht
    obtain rfl := Option.some.inj ht
    exact ⟨⟨0, 1, 1, 1⟩, rfl, by decide⟩

/-- Witness for C3: the single expected tile delivered twice. -/
theorem duplicate_delivery_idempotent_witness :
    (∀ m ∈ ([] ++ some tile1 :: some tile1 :: []), ValidDelivery info1 m) ∧
    InfoPos info1 ∧
    ((∀ img, (assemblerRun info1 ([] ++ some tile1 :: some tile1 :: [])).outputs img =
      (assemblerRun info1 ([] ++ some tile1 :: [])).outputs img) ∧
    (∀ n img inf, info1 img = some inf →
      ((assemblerRun info1 (([] ++ some tile1 :: some tile1 :: []).take n)).received
        img).card ≤ inf.expectedTiles)) :=
  ⟨info1_valid2, info1_pos,
    duplicate_delivery_idempotent info1 [] [] (some tile1) info1_valid2 info1_pos⟩

end StudyGuide

